import Mathlib

/-! # falcoctl, package `pkg/index`

A shallow embedding of `src/pkg/index/index.go`: the `Index` catalogue (an
ordered sequence of entry pointers plus a name lookup map), `MergedIndexes`
(an `Index` plus a provenance map), keyword search, and the fuzzy matcher
(`levenshteinDistance`, `score`).

Conventions of the embedding.

* A Go `string` is the list of its bytes (`Str`); `len` is the list length and
  `<` is the byte-wise lexicographic order.
* A `*Entry` is an address (`Ptr`) into a heap `Heap = Ptr → Entry`.  No
  function of the package writes through an entry pointer, so the heap is a
  read-only argument.  A `*Index` handed to `Merge` is likewise an address into
  an `IndexHeap`.  Pointers are non-nil, except the receiver of `Normalize`,
  which the source tests against nil, and the items of the sequence the YAML
  decoder hands to `Read`, where a null item of the file is a nil pointer.
* A Go `map` is an association list without repeated keys (`GoMap`).
* A method that mutates its receiver returns the new receiver; a method that
  also returns an `error` returns the pair of the new receiver and the
  optional error message.
* The YAML codec and the file functions that `Write` and `Read` call are
  arguments of the model (`Lib`).
-/

namespace Falcoctl

/-! ## Strings -/

/-- A Go string, as its sequence of bytes. -/
abbrev Str := List Nat

/-- The bytes of an ASCII literal. -/
def bytes (s : String) : Str := s.toList.map Char.toNat

/-- Go's `strings.HasPrefix`. -/
def hasPrefix : Str → Str → Bool
  | _, [] => true
  | [], _ :: _ => false
  | a :: s, b :: p => a = b && hasPrefix s p

/-- Go's `strings.Contains s substr`: `substr` occurs in `s` as a contiguous run of bytes. -/
def contains : Str → Str → Bool
  | [], substr => hasPrefix [] substr
  | a :: s, substr => hasPrefix (a :: s) substr || contains s substr

/-- Go's `strings.Join elems sep`. -/
def join : List Str → Str → Str
  | [], _ => []
  | [a], _ => a
  | a :: b :: rest, sep => a ++ sep ++ join (b :: rest) sep

/-! ### `strings.ToLower`

`strings.ToLower` belongs to the Go standard library.  It is modelled after
the library source: a string made of ASCII bytes only goes through a byte loop
that adds 32 to the bytes `A`..`Z`; any other string goes through
`strings.Map(unicode.ToLower, s)`, which decodes the string rune by rune (an
invalid byte decodes to `RuneError` with width 1), maps each rune and writes
the UTF-8 encoding of the result.  `unicode.ToLower` maps ASCII runes itself
and looks every other rune up in the table `unicode.CaseRanges`; that table is
the argument `caseTable` of the definitions below.
-/

/-- Go's `utf8.RuneError`, U+FFFD. -/
def RuneError : Nat := 0xFFFD

/-- A UTF-8 continuation byte, `0x80..0xBF`. -/
def isCont (b : Nat) : Bool := decide (0x80 ≤ b) && decide (b ≤ 0xBF)

/-- Go's `utf8.DecodeRuneInString`: the first rune of the string and its width in bytes.
Encodings that are not shortest-form, surrogates, runes above U+10FFFF and truncated
sequences give `(RuneError, 1)`. -/
def decodeRune : Str → Nat × Nat
  | [] => (RuneError, 0)
  | b0 :: rest =>
    if b0 < 0x80 then (b0, 1)
    else if 0xC2 ≤ b0 ∧ b0 ≤ 0xDF then
      match rest with
      | b1 :: _ =>
        if isCont b1 then ((b0 - 0xC0) * 64 + (b1 - 0x80), 2) else (RuneError, 1)
      | _ => (RuneError, 1)
    else if 0xE0 ≤ b0 ∧ b0 ≤ 0xEF then
      match rest with
      | b1 :: b2 :: _ =>
        let lo := if b0 = 0xE0 then 0xA0 else 0x80
        let hi := if b0 = 0xED then 0x9F else 0xBF
        if lo ≤ b1 ∧ b1 ≤ hi ∧ isCont b2 then
          ((b0 - 0xE0) * 4096 + (b1 - 0x80) * 64 + (b2 - 0x80), 3)
        else (RuneError, 1)
      | _ => (RuneError, 1)
    else if 0xF0 ≤ b0 ∧ b0 ≤ 0xF4 then
      match rest with
      | b1 :: b2 :: b3 :: _ =>
        let lo := if b0 = 0xF0 then 0x90 else 0x80
        let hi := if b0 = 0xF4 then 0x8F else 0xBF
        if lo ≤ b1 ∧ b1 ≤ hi ∧ isCont b2 ∧ isCont b3 then
          ((b0 - 0xF0) * 262144 + (b1 - 0x80) * 4096 + (b2 - 0x80) * 64 + (b3 - 0x80), 4)
        else (RuneError, 1)
      | _ => (RuneError, 1)
    else (RuneError, 1)

/-- Go's `utf8.AppendRune`: the UTF-8 encoding of a rune; surrogates and runes above
U+10FFFF are written as `RuneError`. -/
def encodeRune (r : Nat) : Str :=
  if r < 0x80 then [r]
  else if r < 0x800 then [0xC0 + r / 64, 0x80 + r % 64]
  else if 0x10FFFF < r ∨ (0xD800 ≤ r ∧ r ≤ 0xDFFF) then [0xEF, 0xBF, 0xBD]
  else if r < 0x10000 then [0xE0 + r / 4096, 0x80 + r / 64 % 64, 0x80 + r % 64]
  else [0xF0 + r / 262144, 0x80 + r / 4096 % 64, 0x80 + r / 64 % 64, 0x80 + r % 64]

/-- Go's `strings.Map` for a mapping that never drops a rune: decode, map, encode. -/
def mapRunes (mapping : Nat → Nat) (s : Str) : Str :=
  match s with
  | [] => []
  | b0 :: rest =>
    encodeRune (mapping (decodeRune (b0 :: rest)).1) ++
      mapRunes mapping (rest.drop ((decodeRune (b0 :: rest)).2 - 1))
termination_by s.length
decreasing_by
  simp only [List.length_drop, List.length_cons]
  omega

/-- Go's `unicode.ToLower`: ASCII runes are mapped directly, the others through the case
table. -/
def unicodeToLower (caseTable : Nat → Nat) (r : Nat) : Nat :=
  if r ≤ 0x7F then (if 0x41 ≤ r ∧ r ≤ 0x5A then r + 32 else r) else caseTable r

/-- The byte loop of `strings.ToLower` on ASCII-only strings. -/
def lowerASCII (c : Nat) : Nat := if 0x41 ≤ c ∧ c ≤ 0x5A then c + 32 else c

/-- Go's `strings.ToLower`. -/
def toLower (caseTable : Nat → Nat) (s : Str) : Str :=
  if s.all (fun c => decide (c < 0x80)) then s.map lowerASCII
  else mapRunes (unicodeToLower caseTable) s

/-- The row `{0x023A, 0x023A, d{0, 10795, 0}}` of Go's `unicode.CaseRanges` (the letter
U+023A has the lower case U+2C65); every other rune is left alone by this excerpt.  It is
used only where a definition is evaluated on a concrete string. -/
def caseRangesExcerpt (r : Nat) : Nat := if r = 0x23A then r + 10795 else r

/-! ## Loops -/

/-- The loop `for k := lo; k < lo + n; k++ { st = body k st }`. -/
def loopFrom {σ : Type} (body : Nat → σ → σ) : Nat → Nat → σ → σ
  | _, 0, st => st
  | lo, n + 1, st => loopFrom body (lo + 1) n (body lo st)

/-! ## The fuzzy matcher -/

/-- The table `d [][]int` of `levenshteinDistance`: a list of rows. -/
abbrev Table := List (List Nat)

/-- The table built by `make([][]int, n)` followed by `d[i] = make([]int, m)` for every row. -/
def Table.make (n m : Nat) : Table := List.replicate n (List.replicate m 0)

/-- The read `d[i][j]`.  Every read and write of `levenshteinDistance` is in range; out of
range the read gives 0 and the write does nothing. -/
def Table.get (d : Table) (i j : Nat) : Nat := (d.getD i []).getD j 0

/-- The assignment `d[i][j] = v`. -/
def Table.set (d : Table) (i j v : Nat) : Table := List.set d i ((d.getD i []).set j v)

/-- The body of the inner loop of `levenshteinDistance`, at column `j` and row `i`. -/
def levCell (s t : Str) (j i : Nat) (d : Table) : Table :=
  if s.getD (i - 1) 0 = t.getD (j - 1) 0 then
    d.set i j (d.get (i - 1) (j - 1))
  else
    let min := d.get (i - 1) j
    let min := if d.get i (j - 1) < min then d.get i (j - 1) else min
    let min := if d.get (i - 1) (j - 1) < min then d.get (i - 1) (j - 1) else min
    d.set i j (min + 1)

/-- The function `levenshteinDistance` of `index.go`. -/
def levenshteinDistance (caseTable : Nat → Nat) (s t : Str) : Nat :=
  let s := toLower caseTable s
  let t := toLower caseTable t
  let d : Table := Table.make (s.length + 1) (t.length + 1)
  let d := loopFrom (fun i d => d.set i 0 i) 0 (s.length + 1) d
  let d := loopFrom (fun j d => d.set 0 j j) 0 (t.length + 1) d
  let d := loopFrom (fun j d => loopFrom (levCell s t j) 1 s.length d) 1 t.length d
  d.get s.length t.length

/-- A `float64` as far as `score` and its comparison need it: not-a-number, an infinity
with its sign, or a finite value kept as an exact rational (rounding is not modelled). -/
inductive Float64 where
  | nan : Float64
  | inf (negative : Bool) : Float64
  | fin (q : ℚ) : Float64
deriving DecidableEq

/-- The quotient `x / y` of two finite floats: `0 / 0` is not-a-number and any other
division by zero is an infinity. -/
def Float64.div (x y : ℚ) : Float64 :=
  if y = 0 then (if x = 0 then Float64.nan else Float64.inf (decide (x < 0)))
  else Float64.fin (x / y)

/-- The comparison `x >= y` of Go: false as soon as one side is not-a-number. -/
def Float64.ge : Float64 → Float64 → Bool
  | Float64.nan, _ => false
  | _, Float64.nan => false
  | Float64.inf false, _ => true
  | Float64.inf true, Float64.inf true => true
  | Float64.inf true, _ => false
  | Float64.fin _, Float64.inf false => false
  | Float64.fin _, Float64.inf true => true
  | Float64.fin x, Float64.fin y => decide (y ≤ x)

/-- The function `score` of `index.go`. -/
def score (caseTable : Nat → Nat) (s t : Str) : Float64 :=
  let distance := levenshteinDistance caseTable s t
  let longerLen : ℚ := max (s.length : ℚ) (t.length : ℚ)
  Float64.div (longerLen - (distance : ℚ)) longerLen

/-! ## Entries, pointers and maps -/

/-- One element of the field `Maintainers` of an `Entry`. -/
structure Maintainer where
  Email : Str
  Name : Str
deriving DecidableEq

/-- The struct `Entry` of `index.go` (the field `Type` is spelled `Typ`). -/
structure Entry where
  Name : Str
  Typ : Str
  Registry : Str
  Repository : Str
  Description : Str
  Home : Str
  Keywords : List Str
  License : Str
  Maintainers : List Maintainer
  Sources : List Str
deriving DecidableEq

/-- A non-nil `*Entry`: an address. -/
abbrev Ptr := Nat

/-- The entries the pointers point to. -/
abbrev Heap := Ptr → Entry

/-- A Go `map[K]V`: an association list in which no key occurs twice.  `len` of the map is
the length of `entries`, `m[k]` is `AList.lookup`, `m[k] = v` is `AList.insert` and
`delete(m, k)` is `AList.erase`. -/
abbrev GoMap (K V : Type) := AList (fun _ : K => V)

/-- The struct `Index` of `index.go`. -/
structure Index where
  Name : Str
  Entries : List Ptr
  entryByName : GoMap Str Ptr
deriving DecidableEq

/-- A non-nil `*Index`: an address. -/
abbrev IndexPtr := Nat

/-- The indexes the index pointers point to. -/
abbrev IndexHeap := IndexPtr → Index

/-- The struct `MergedIndexes` of `index.go`; `toIndex` is the embedded `Index`. -/
structure MergedIndexes where
  toIndex : Index
  indexByEntry : GoMap Ptr IndexPtr
deriving DecidableEq

/-! ## Index -/

/-- The function `New` of `index.go`. -/
def New (name : Str) : Index := ⟨name, [], ∅⟩

/-- The range loop of `Upsert`: the sequence after `i.Entries[k] = entry` at the first `k`
whose entry has the name of `entry`, or `none` when the loop runs to its end. -/
def upsertLoop (hp : Heap) (entry : Ptr) : List Ptr → Option (List Ptr)
  | [] => none
  | e :: rest =>
    if (hp e).Name = (hp entry).Name then some (entry :: rest)
    else (upsertLoop hp entry rest).map (fun es => e :: es)

/-- The method `Index.Upsert` of `index.go`; the deferred map assignment runs on both
exits. -/
def Index.Upsert (hp : Heap) (i : Index) (entry : Ptr) : Index :=
  match upsertLoop hp entry i.Entries with
  | some es => ⟨i.Name, es, i.entryByName.insert (hp entry).Name entry⟩
  | none => ⟨i.Name, i.Entries ++ [entry], i.entryByName.insert (hp entry).Name entry⟩

/-- The range loop of `Remove`: the sequence after
`append(i.Entries[:k], i.Entries[k+1:]...)` at the first `k` that holds the pointer `entry`,
or `none` when the loop runs to its end. -/
def removeLoop (entry : Ptr) : List Ptr → Option (List Ptr)
  | [] => none
  | e :: rest =>
    if e = entry then some rest
    else (removeLoop entry rest).map (fun es => e :: es)

/-- The method `Index.Remove` of `index.go`. -/
def Index.Remove (hp : Heap) (i : Index) (entry : Ptr) : Index × Option Str :=
  match removeLoop entry i.Entries with
  | some es => (⟨i.Name, es, i.entryByName.erase (hp entry).Name⟩, none)
  | none => (i, some (bytes "cannot remove " ++ (hp entry).Name ++ bytes ": not found"))

/-- The method `Index.EntryByName` of `index.go`: `some e` stands for `(e, true)` and `none`
for `(nil, false)`. -/
def Index.EntryByName (i : Index) (name : Str) : Option Ptr :=
  i.entryByName.lookup name

/-! ### `sort.Slice`

`sort.Slice` belongs to the Go standard library.  It is modelled by the
insertion sort the library runs on slices of at most twelve elements
(`insertionSort_func`).  On longer slices the library uses another algorithm,
which orders elements that compare different in the same way and may order
elements that compare equal differently.
-/

/-- The inner loop `for j := i; j > a && less(j, j-1); j-- { swap(j, j-1) }` of
`insertionSort_func`: `x` moves left over the already sorted part, which is given nearest
neighbour first. -/
def sinkLeft {α : Type} (less : α → α → Bool) (x : α) : List α → List α
  | [] => [x]
  | y :: left => if less x y then y :: sinkLeft less x left else x :: y :: left

/-- Model of `sort.Slice`. -/
def sortSlice {α : Type} (less : α → α → Bool) (l : List α) : List α :=
  (l.foldl (fun sorted x => sinkLeft less x sorted) []).reverse

/-- The range loop of `Normalize`: every name of the sequence is a key of the map. -/
def namesResolve (hp : Heap) (m : GoMap Str Ptr) : List Ptr → Bool
  | [] => true
  | e :: rest => if (m.lookup (hp e).Name).isSome then namesResolve hp m rest else false

/-- The method `Index.Normalize` of `index.go`; the receiver `none` is the nil pointer. -/
def Index.Normalize (hp : Heap) (i : Option Index) : Option Index × Option Str :=
  match i with
  | none => (none, some (bytes "cannot normalize an uninitialized index"))
  | some ix =>
    if ix.entryByName.entries.length ≠ ix.Entries.length then
      (some ix, some (bytes "inconsistent index state"))
    else if namesResolve hp ix.entryByName ix.Entries = false then
      (some ix, some (bytes "inconsistent index state"))
    else
      (some ⟨ix.Name,
          sortSlice (fun k j => decide ((hp k).Name < (hp j).Name)) ix.Entries,
          ix.entryByName⟩, none)

/-! ### Write and Read

`Write` and `Read` call the YAML codec `gopkg.in/yaml.v3` and the file
functions of the Go standard library.  Those are arguments of the model: `Lib`
lists what the two methods take from them, over any type `FS` of file-system
states.  The heap holds every entry that is ever allocated, so the decoder
returns the addresses of the entries it has built; for a null item of the
sequence in the file it returns a nil pointer (`none`).
-/

/-- The library functions `Write` and `Read` call. -/
structure Lib (FS : Type) where
  /-- The call `yaml.Marshal(i.Entries)`, on the entries the pointers point to: the encoded
  bytes or the text of the error. -/
  marshal : List Entry → Except Str Str
  /-- The call `yaml.Unmarshal(bytes, &i.Entries)`, on the bytes and the old value of
  `i.Entries`: the new value of `i.Entries`, in which `none` is a nil pointer, and the text
  of the error, if any. -/
  unmarshal : Str → List Ptr → List (Option Ptr) × Option Str
  /-- The call `os.WriteFile(path, data, writePermissions)`: the new file-system state and
  the text of the error, if any. -/
  writeFile : FS → Str → Str → FS × Option Str
  /-- The call `os.ReadFile(path)`: the content or the text of the error. -/
  readFile : FS → Str → Except Str Str
  /-- The function `filepath.Clean`. -/
  clean : Str → Str

/-- The method `Index.Write` of `index.go`; the receiver `none` is the nil pointer, which
`Normalize` rejects.  The result is the receiver, the file system and the error. -/
def Index.Write {FS : Type} (hp : Heap) (lib : Lib FS) (fs : FS) (i : Option Index)
    (path : Str) : Option Index × FS × Option Str :=
  match Index.Normalize hp i with
  | (i1, some err) => (i1, fs, some err)
  | (none, none) => (none, fs, none)
  | (some ix, none) =>
    match lib.marshal (ix.Entries.map hp) with
    | Except.error err => (some ix, fs, some (bytes "cannot marshal index: " ++ err))
    | Except.ok indexBytes =>
      match lib.writeFile fs path indexBytes with
      | (fs1, some err) => (some ix, fs1, some (bytes "cannot write index to file: " ++ err))
      | (fs1, none) => (some ix, fs1, none)

/-- What a call of `Read` does. -/
inductive ReadOutcome where
  /-- The range loop reads `e.Name` through a nil pointer: the call panics. -/
  | panic : ReadOutcome
  /-- The call returns: the fields `Entries` (where `none` is a nil pointer) and
  `entryByName` of the receiver after the call, and the error.  The field `Name` of the
  receiver is not written. -/
  | returned (entries : List (Option Ptr)) (entryByName : GoMap Str Ptr)
      (err : Option Str) : ReadOutcome

/-- The range loop of `Read`, which fills the lookup map and leaves at the first entry whose
name is already a key: the map and the error, or `none` when the loop reads `e.Name`
through a nil pointer and panics. -/
def readLoop (hp : Heap) : List (Option Ptr) → GoMap Str Ptr →
    Option (GoMap Str Ptr × Option Str)
  | [], m => some (m, none)
  | none :: _, _ => none
  | some e :: rest, m =>
    if (m.lookup (hp e).Name).isSome then
      some (m, some (bytes "duplicate entry found: " ++ (hp e).Name))
    else readLoop hp rest (m.insert (hp e).Name e)

/-- The method `Index.Read` of `index.go`. -/
def Index.Read {FS : Type} (hp : Heap) (lib : Lib FS) (fs : FS) (i : Index) (path : Str) :
    ReadOutcome :=
  match lib.readFile fs (lib.clean path) with
  | Except.error err =>
    ReadOutcome.returned (i.Entries.map some) i.entryByName
      (some (bytes "cannot read index from file: " ++ err))
  | Except.ok content =>
    match lib.unmarshal content i.Entries with
    | (entries, some err) =>
      ReadOutcome.returned entries i.entryByName
        (some (bytes "cannot unmarshal index: " ++ err))
    | (entries, none) =>
      match readLoop hp entries ∅ with
      | none => ReadOutcome.panic
      | some (m, err) => ReadOutcome.returned entries m err

/-! ## MergedIndexes -/

/-- The function `NewMergedIndexes` of `index.go`. -/
def NewMergedIndexes : MergedIndexes := ⟨⟨[], [], ∅⟩, ∅⟩

/-- The body of the inner loop of `Merge`. -/
def mergeEntry (hp : Heap) (index : IndexPtr) (m : MergedIndexes) (entry : Ptr) :
    MergedIndexes :=
  ⟨m.toIndex.Upsert hp entry, m.indexByEntry.insert entry index⟩

/-- The method `MergedIndexes.Merge` of `index.go`. -/
def MergedIndexes.Merge (hp : Heap) (ih : IndexHeap) (m : MergedIndexes)
    (indexes : List IndexPtr) : MergedIndexes :=
  indexes.foldl (fun m index => (ih index).Entries.foldl (mergeEntry hp index) m) m

/-- The method `MergedIndexes.IndexByEntry` of `index.go`; `none` is the nil pointer. -/
def MergedIndexes.IndexByEntry (m : MergedIndexes) (entry : Ptr) : Option IndexPtr :=
  m.indexByEntry.lookup entry

/-! ## Keyword search -/

/-- The condition of the `if` in `SearchByKeywords`. -/
def keywordMatches (caseTable : Nat → Nat) (minScore : Float64) (name entryKeywords : Str)
    (keyword : Str) : Bool :=
  (score caseTable name keyword).ge minScore || contains entryKeywords keyword

/-- The inner loop of `SearchByKeywords`, which leaves at the first keyword that matches. -/
def keywordLoop (caseTable : Nat → Nat) (minScore : Float64) (name entryKeywords : Str) :
    List Str → Bool
  | [] => false
  | keyword :: rest =>
    if keywordMatches caseTable minScore name entryKeywords keyword then true
    else keywordLoop caseTable minScore name entryKeywords rest

/-- The map `matches` of `SearchByKeywords` after the outer loop: a set of pointers. -/
def searchMatches (caseTable : Nat → Nat) (hp : Heap) (i : Index) (minScore : Float64)
    (keywords : List Str) : Finset Ptr :=
  i.Entries.foldl
    (fun found entry =>
      if keywordLoop caseTable minScore (hp entry).Name
          (join (hp entry).Keywords (bytes " ")) keywords
      then insert entry found else found)
    ∅

/-- The method `Index.SearchByKeywords` of `index.go`.  The result slice lists the keys of
`matches` in the order of a Go map iteration, which is unspecified: the result is the
multiset of its elements. -/
def Index.SearchByKeywords (caseTable : Nat → Nat) (hp : Heap) (i : Index)
    (minScore : Float64) (keywords : List Str) : Multiset Ptr :=
  (searchMatches caseTable hp i minScore keywords).val

/-! ## Specification-side definitions and example data -/

/-- The names of a sequence of entries, in order. -/
def entryNames (hp : Heap) (l : List Ptr) : List Str := l.map (fun p => (hp p).Name)

/-- An entry that has only a name, a registry and a keyword list. -/
def mkEntry (name registry : Str) (keywords : List Str) : Entry :=
  ⟨name, [], registry, [], [], [], keywords, [], [], []⟩

/-- Example heap: address 0 holds `{name: "x", registry: "r1"}`, address 1 holds
`{name: "x", registry: "r2"}`, every other address holds `{name: "y"}`. -/
def heapX : Heap := fun p =>
  if p = 0 then mkEntry (bytes "x") (bytes "r1") []
  else if p = 1 then mkEntry (bytes "x") (bytes "r2") []
  else mkEntry (bytes "y") [] []

/-- Example index heap over `heapX`: address 0 holds the index `A` with the single entry at
address 0, every other address holds the index `B` with the single entry at address 1. -/
def indexHeapAB : IndexHeap := fun a =>
  if a = 0 then (New (bytes "A")).Upsert heapX 0 else (New (bytes "B")).Upsert heapX 1

/-- The inner loop of `SearchByKeywords` without its `break`: every keyword is tried. -/
def keywordScan (caseTable : Nat → Nat) (minScore : Float64) (name entryKeywords : Str)
    (keywords : List Str) : Bool :=
  keywords.foldl
    (fun found keyword => found || keywordMatches caseTable minScore name entryKeywords keyword)
    false

/-- The method `SearchByKeywords` with the inner loop replaced by `keywordScan`. -/
def searchWithoutBreak (caseTable : Nat → Nat) (hp : Heap) (i : Index) (minScore : Float64)
    (keywords : List Str) : Multiset Ptr :=
  (i.Entries.foldl
    (fun found entry =>
      if keywordScan caseTable minScore (hp entry).Name
          (join (hp entry).Keywords (bytes " ")) keywords
      then insert entry found else found)
    (∅ : Finset Ptr)).val

/-- Example heap: address 0 holds an entry named `rule` without keywords, every other
address holds an entry named `completely-different` with the keywords `security`, `falco`. -/
def heapRules : Heap := fun p =>
  if p = 0 then mkEntry (bytes "rule") [] []
  else mkEntry (bytes "completely-different") [] [bytes "security", bytes "falco"]

/-- Example index over `heapRules` with the entries at the addresses 0 and 1. -/
def indexRules : Index := ((New (bytes "rules")).Upsert heapRules 0).Upsert heapRules 1

/-- The standard recursion of the edit distance, on the last bytes of the two strings:
`lev("", y) = |y|`, `lev(x, "") = |x|`, `lev(xa, yb) = lev(x, y)` if `a = b` and
`1 + min(lev(x, yb), lev(xa, y), lev(x, y))` otherwise. -/
def lev (x y : Str) : Nat :=
  if hx : x = [] then y.length
  else if hy : y = [] then x.length
  else if x.getLast hx = y.getLast hy then lev x.dropLast y.dropLast
  else 1 + min (lev x.dropLast y) (min (lev x y.dropLast) (lev x.dropLast y.dropLast))
termination_by x.length + y.length
decreasing_by
  all_goals simp only [List.length_dropLast]
  all_goals have h1 := List.length_pos.2 hx
  all_goals have h2 := List.length_pos.2 hy
  all_goals omega

/-- A table with `n` rows of `m` cells each. -/
def Table.HasDim (d : Table) (n m : Nat) : Prop := d.length = n ∧ ∀ row ∈ d, row.length = m

/-- Example index over `heapX` that breaks the invariant: the sequence holds the addresses
0 and 1, both named `x`, and the lookup map has the key `x` for address 0 and the key `y`
for address 1. -/
def indexDup : Index :=
  ⟨bytes "idx", [0, 1], ((∅ : GoMap Str Ptr).insert (bytes "x") 0).insert (bytes "y") 1⟩

/-- Example index over `heapX`: entries at the addresses 2 (named `y`) and 0 (named `x`),
upserted in this order. -/
def indexYX : Index := ((New (bytes "idx")).Upsert heapX 2).Upsert heapX 0

/-- The invariant of the data model: no two entries of the sequence share a name, and the
lookup map sends a name to a pointer exactly when the pointer is the entry of that name in
the sequence. -/
def Index.Invariant (hp : Heap) (i : Index) : Prop :=
  (entryNames hp i.Entries).Nodup ∧
  ∀ n p, i.entryByName.lookup n = some p ↔ (p ∈ i.Entries ∧ (hp p).Name = n)

/-- A call of `Upsert`, `Remove` or `Normalize`. -/
inductive Op where
  | upsert (entry : Ptr) : Op
  | remove (entry : Ptr) : Op
  | normalize : Op

/-- The index after a call (the error a call returns is dropped). -/
def Op.apply (hp : Heap) (i : Index) : Op → Index
  | Op.upsert entry => i.Upsert hp entry
  | Op.remove entry => (i.Remove hp entry).1
  | Op.normalize => ((Index.Normalize hp (some i)).1).getD i

/-- The index reached from `New(name)` by a sequence of calls. -/
def runOps (hp : Heap) (name : Str) (ops : List Op) : Index :=
  ops.foldl (Op.apply hp) (New name)

/-- A library for examples: every call succeeds, the file content is empty and the decoder
returns the entries at the addresses 0 and 1. -/
def libTwo : Lib Unit :=
  ⟨fun _ => Except.ok [], fun _ _ => ([some 0, some 1], none), fun fs _ _ => (fs, none),
    fun _ _ => Except.ok [], fun path => path⟩

/-- A library for examples: every call succeeds, the file content is empty and the decoder
returns the entries at the addresses 0 and 2. -/
def libZeroTwo : Lib Unit :=
  ⟨fun _ => Except.ok [], fun _ _ => ([some 0, some 2], none), fun fs _ _ => (fs, none),
    fun _ _ => Except.ok [], fun path => path⟩

/-- Example heap: address 0 holds an entry named `other` with the keywords `rule` and
`RULE`, every other address holds an entry named `other` with the keyword `rule`. -/
def heapCase : Heap := fun p =>
  if p = 0 then mkEntry (bytes "other") [] [bytes "rule", bytes "RULE"]
  else mkEntry (bytes "other") [] [bytes "rule"]

/-- Example index over `heapX`: entries at the addresses 0 (named `x`) and 2 (named `y`),
upserted in this order. -/
def indexXY : Index := ((New (bytes "idx2")).Upsert heapX 0).Upsert heapX 2

/-- Example index over `heapCase` with the entry at address 0. -/
def indexCase : Index := (New (bytes "idx")).Upsert heapCase 0

/-- Example index over `heapCase` with the entry at address 1. -/
def indexCaseLower : Index := (New (bytes "idx")).Upsert heapCase 1

/-! ## Theorems -/

/-! ### Upsert and EntryByName -/

theorem upsertLoop_none_iff (hp : Heap) (e : Ptr) (l : List Ptr) :
    upsertLoop hp e l = none ↔ (hp e).Name ∉ entryNames hp l := by
  induction l with
  | nil => simp [upsertLoop, entryNames]
  | cons a l ih =>
    by_cases h : (hp a).Name = (hp e).Name
    · simp [upsertLoop, entryNames, h]
    · have h2 : ¬ (hp e).Name = (hp a).Name := fun h3 => h h3.symm
      simp only [entryNames] at ih
      simp [upsertLoop, entryNames, h, h2, ih]

theorem upsertLoop_some_names (hp : Heap) (e : Ptr) (l es : List Ptr)
    (h : upsertLoop hp e l = some es) : entryNames hp es = entryNames hp l := by
  induction l generalizing es with
  | nil => simp [upsertLoop] at h
  | cons a l ih =>
    by_cases hn : (hp a).Name = (hp e).Name
    · simp [upsertLoop, hn] at h
      subst h
      simp [entryNames, hn]
    · rw [upsertLoop, if_neg hn] at h
      cases h1 : upsertLoop hp e l with
      | none => rw [h1] at h; cases h
      | some es2 =>
        rw [h1] at h
        cases h
        have := ih es2 h1
        simp only [entryNames] at this
        simp [entryNames, this]

theorem upsert_names (hp : Heap) (i : Index) (e : Ptr) :
    entryNames hp (i.Upsert hp e).Entries =
      if (hp e).Name ∈ entryNames hp i.Entries then entryNames hp i.Entries
      else entryNames hp i.Entries ++ [(hp e).Name] := by
  unfold Index.Upsert
  cases h : upsertLoop hp e i.Entries with
  | none =>
    have := (upsertLoop_none_iff hp e i.Entries).1 h
    rw [if_neg this]
    simp [entryNames]
  | some es =>
    have h1 : (hp e).Name ∈ entryNames hp i.Entries := by
      by_contra hc
      rw [(upsertLoop_none_iff hp e i.Entries).2 hc] at h
      cases h
    rw [if_pos h1]
    exact upsertLoop_some_names hp e _ _ h

theorem upsert_names_nodup (hp : Heap) (i : Index) (e : Ptr)
    (h : (entryNames hp i.Entries).Nodup) : (entryNames hp (i.Upsert hp e).Entries).Nodup := by
  rw [upsert_names]
  split
  · exact h
  · rename_i hn
    exact List.Nodup.append h (List.nodup_singleton _) (by simpa using hn)

theorem upsert_entryByName_same (hp : Heap) (i : Index) (e : Ptr) :
    (i.Upsert hp e).EntryByName (hp e).Name = some e := by
  unfold Index.Upsert Index.EntryByName
  cases upsertLoop hp e i.Entries <;> simp [AList.lookup_insert]

theorem upsert_entryByName_other (hp : Heap) (i : Index) (e : Ptr) (n : Str)
    (h : n ≠ (hp e).Name) : (i.Upsert hp e).EntryByName n = i.EntryByName n := by
  unfold Index.Upsert Index.EntryByName
  cases upsertLoop hp e i.Entries <;> simp [AList.lookup_insert_ne h]

theorem foldl_upsert_names_nodup (hp : Heap) (es : List Ptr) (i : Index)
    (h : (entryNames hp i.Entries).Nodup) :
    (entryNames hp (es.foldl (Index.Upsert hp) i).Entries).Nodup := by
  induction es generalizing i with
  | nil => simpa using h
  | cons a es ih => exact ih _ (upsert_names_nodup hp i a h)

theorem foldl_upsert_entryByName_other (hp : Heap) (es : List Ptr) (i : Index) (n : Str)
    (h : ∀ p ∈ es, (hp p).Name ≠ n) :
    (es.foldl (Index.Upsert hp) i).EntryByName n = i.EntryByName n := by
  induction es generalizing i with
  | nil => rfl
  | cons a es ih =>
    rw [List.foldl_cons, ih _ (fun p hp2 => h p (List.mem_cons_of_mem _ hp2))]
    exact upsert_entryByName_other hp i a n (fun hc => h a (List.mem_cons_self _ _) hc.symm)

/-- C1: on an index whose sequence has no repeated name, after `Upsert(e)` the lookup of
`e.Name` returns `e`, the lookup of every other name is unchanged and the sequence still has
no repeated name; so after any sequence of upserts the sequence has no repeated name and
the lookup of a name returns the entry of that name upserted last. -/
theorem upsert_then_entryByName (hp : Heap) (i : Index) (e : Ptr)
    (huniq : (entryNames hp i.Entries).Nodup) :
    (i.Upsert hp e).EntryByName (hp e).Name = some e ∧
    (∀ n, n ≠ (hp e).Name → (i.Upsert hp e).EntryByName n = i.EntryByName n) ∧
    (entryNames hp (i.Upsert hp e).Entries).Nodup ∧
    (∀ es : List Ptr, (entryNames hp (es.foldl (Index.Upsert hp) i).Entries).Nodup) ∧
    (∀ earlier later : List Ptr, (∀ p ∈ later, (hp p).Name ≠ (hp e).Name) →
      ((earlier ++ e :: later).foldl (Index.Upsert hp) i).EntryByName (hp e).Name = some e) := by
  refine ⟨upsert_entryByName_same hp i e, fun n hn => upsert_entryByName_other hp i e n hn,
    upsert_names_nodup hp i e huniq, fun es => foldl_upsert_names_nodup hp es i huniq, ?_⟩
  intro earlier later hlater
  rw [List.foldl_append, List.foldl_cons,
    foldl_upsert_entryByName_other hp later _ _ hlater]
  exact upsert_entryByName_same hp _ e

/-- Witness of C1: the empty index `New "idx"` and the entry at address 0 of `heapX`. -/
theorem upsert_then_entryByName_witness :
    ((New (bytes "idx")).Upsert heapX 0).EntryByName (heapX 0).Name = some 0 :=
  (upsert_then_entryByName heapX (New (bytes "idx")) 0 (by simp [New, entryNames])).1

/-! ### Merge -/

theorem exists_last_of_exists {α : Type} (P : α → Prop) (l : List α) (h : ∃ x ∈ l, P x) :
    ∃ l1 x l2, l = l1 ++ x :: l2 ∧ P x ∧ ∀ y ∈ l2, ¬ P y := by
  induction l with
  | nil => simp at h
  | cons a l ih =>
    by_cases hl : ∃ x ∈ l, P x
    · obtain ⟨l1, x, l2, h1, h2, h3⟩ := ih hl
      exact ⟨a :: l1, x, l2, by simp [h1], h2, h3⟩
    · obtain ⟨x, hx, hpx⟩ := h
      rcases List.mem_cons.1 hx with rfl | hx2
      · exact ⟨[], x, l, rfl, hpx, fun y hy hpy => hl ⟨y, hy, hpy⟩⟩
      · exact absurd ⟨x, hx2, hpx⟩ hl

theorem mergeEntry_fold_entryByName (hp : Heap) (B : IndexPtr) (es : List Ptr)
    (m : MergedIndexes) (n : Str) (h : ∀ p ∈ es, (hp p).Name ≠ n) :
    (es.foldl (mergeEntry hp B) m).toIndex.EntryByName n = m.toIndex.EntryByName n := by
  induction es generalizing m with
  | nil => rfl
  | cons a es ih =>
    rw [List.foldl_cons, ih _ (fun p hp2 => h p (List.mem_cons_of_mem _ hp2))]
    exact upsert_entryByName_other hp _ a n (fun hc => h a (List.mem_cons_self _ _) hc.symm)

theorem mergeEntry_fold_indexByEntry (hp : Heap) (B : IndexPtr) (es : List Ptr)
    (m : MergedIndexes) (r : Ptr) (h : ∀ p ∈ es, p ≠ r) :
    (es.foldl (mergeEntry hp B) m).IndexByEntry r = m.IndexByEntry r := by
  induction es generalizing m with
  | nil => rfl
  | cons a es ih =>
    rw [List.foldl_cons, ih _ (fun p hp2 => h p (List.mem_cons_of_mem _ hp2))]
    have hne : r ≠ a := fun hc => h a (List.mem_cons_self _ _) hc.symm
    simp [mergeEntry, MergedIndexes.IndexByEntry, AList.lookup_insert_ne hne]

theorem merge_frame (hp : Heap) (ih : IndexHeap) (later : List IndexPtr) (m : MergedIndexes)
    (r : Ptr) (h : ∀ ix ∈ later, ∀ p ∈ (ih ix).Entries, (hp p).Name ≠ (hp r).Name) :
    (m.Merge hp ih later).toIndex.EntryByName (hp r).Name = m.toIndex.EntryByName (hp r).Name ∧
    (m.Merge hp ih later).IndexByEntry r = m.IndexByEntry r := by
  induction later generalizing m with
  | nil => exact ⟨rfl, rfl⟩
  | cons a later ih2 =>
    have hrest := ih2 ((ih a).Entries.foldl (mergeEntry hp a) m)
      (fun ix hix => h ix (List.mem_cons_of_mem _ hix))
    have ha := h a (List.mem_cons_self _ _)
    unfold MergedIndexes.Merge at hrest ⊢
    rw [List.foldl_cons, hrest.1, hrest.2]
    exact ⟨mergeEntry_fold_entryByName hp a _ m _ ha,
      mergeEntry_fold_indexByEntry hp a _ m r (fun p hp2 hc => ha p hp2 (by rw [hc]))⟩

theorem merge_last_writer (hp : Heap) (ih : IndexHeap) (m : MergedIndexes)
    (earlier later : List IndexPtr) (B : IndexPtr) (es1 es2 : List Ptr) (r : Ptr)
    (hB : (ih B).Entries = es1 ++ r :: es2)
    (hes2 : ∀ p ∈ es2, (hp p).Name ≠ (hp r).Name)
    (hlater : ∀ ix ∈ later, ∀ p ∈ (ih ix).Entries, (hp p).Name ≠ (hp r).Name) :
    (m.Merge hp ih (earlier ++ B :: later)).toIndex.EntryByName (hp r).Name = some r ∧
    (m.Merge hp ih (earlier ++ B :: later)).IndexByEntry r = some B := by
  have hsplit : m.Merge hp ih (earlier ++ B :: later) =
      MergedIndexes.Merge hp ih
        (es2.foldl (mergeEntry hp B) (mergeEntry hp B (es1.foldl (mergeEntry hp B)
          (m.Merge hp ih earlier)) r)) later := by
    unfold MergedIndexes.Merge
    rw [List.foldl_append, List.foldl_cons, hB, List.foldl_append, List.foldl_cons]
  rw [hsplit]
  obtain ⟨h1, h2⟩ := merge_frame hp ih later
    (es2.foldl (mergeEntry hp B) (mergeEntry hp B (es1.foldl (mergeEntry hp B)
      (m.Merge hp ih earlier)) r)) r hlater
  rw [h1, h2, mergeEntry_fold_entryByName hp B es2 _ _ hes2,
    mergeEntry_fold_indexByEntry hp B es2 _ r (fun p hp2 hc => hes2 p hp2 (by rw [hc]))]
  exact ⟨upsert_entryByName_same hp _ r,
    by simp [mergeEntry, MergedIndexes.IndexByEntry, AList.lookup_insert]⟩

/-- C2: after one `Merge` of a list of indexes into a fresh `MergedIndexes`, for every name
`n` that occurs in one of them, the list splits at a last index `B` that contains `n` (no
later index does), the sequence of `B` splits at its last entry `r` named `n`, the lookup of
`n` in the merged view returns `r`, and `IndexByEntry(r)` returns `B`. -/
theorem merge_shadowing (hp : Heap) (ih : IndexHeap) (indexes : List IndexPtr) (n : Str)
    (hocc : ∃ ix ∈ indexes, n ∈ entryNames hp (ih ix).Entries) :
    ∃ (earlier later : List IndexPtr) (B : IndexPtr) (es1 es2 : List Ptr) (r : Ptr),
      indexes = earlier ++ B :: later ∧
      (∀ ix ∈ later, n ∉ entryNames hp (ih ix).Entries) ∧
      (ih B).Entries = es1 ++ r :: es2 ∧ (hp r).Name = n ∧ n ∉ entryNames hp es2 ∧
      (NewMergedIndexes.Merge hp ih indexes).toIndex.EntryByName n = some r ∧
      (NewMergedIndexes.Merge hp ih indexes).IndexByEntry r = some B := by
  obtain ⟨earlier, B, later, hsplit, hB, hlater⟩ :=
    exists_last_of_exists (fun ix => n ∈ entryNames hp (ih ix).Entries) indexes hocc
  have hB2 : ∃ p ∈ (ih B).Entries, (hp p).Name = n := by
    simpa [entryNames] using hB
  obtain ⟨es1, r, es2, hes, hr, hes2⟩ :=
    exists_last_of_exists (fun p => (hp p).Name = n) (ih B).Entries hB2
  have hes2n : ∀ p ∈ es2, (hp p).Name ≠ (hp r).Name := fun p hp2 => by
    rw [hr]; exact hes2 p hp2
  have hlatern : ∀ ix ∈ later, ∀ p ∈ (ih ix).Entries, (hp p).Name ≠ (hp r).Name := by
    intro ix hix p hp2 hc
    apply hlater ix hix
    simp only [entryNames, List.mem_map]
    exact ⟨p, hp2, by rw [hc, hr]⟩
  have hmain := merge_last_writer hp ih NewMergedIndexes earlier later B es1 es2 r hes hes2n
    hlatern
  rw [hr, ← hsplit] at hmain
  refine ⟨earlier, later, B, es1, es2, r, hsplit, hlater, hes, hr, ?_, hmain.1, hmain.2⟩
  simp only [entryNames, List.mem_map, not_exists, not_and]
  exact fun p hp2 => hes2 p hp2

/-- Witness of C2: index `A` (address 0) holds `{name: "x", registry: "r1"}`, index `B`
(address 1) holds `{name: "x", registry: "r2"}`; `Merge(A, B)` answers the lookup of `"x"`
with the entry of `B`, whose provenance is `B`. -/
theorem merge_shadowing_witness :
    (∃ (earlier later : List IndexPtr) (B : IndexPtr) (es1 es2 : List Ptr) (r : Ptr),
      [0, 1] = earlier ++ B :: later ∧
      (∀ ix ∈ later, bytes "x" ∉ entryNames heapX (indexHeapAB ix).Entries) ∧
      (indexHeapAB B).Entries = es1 ++ r :: es2 ∧ (heapX r).Name = bytes "x" ∧
      bytes "x" ∉ entryNames heapX es2 ∧
      (NewMergedIndexes.Merge heapX indexHeapAB [0, 1]).toIndex.EntryByName (bytes "x")
        = some r ∧
      (NewMergedIndexes.Merge heapX indexHeapAB [0, 1]).IndexByEntry r = some B) ∧
    (NewMergedIndexes.Merge heapX indexHeapAB [0, 1]).toIndex.EntryByName (bytes "x")
      = some 1 ∧
    (heapX 1).Registry = bytes "r2" ∧
    (NewMergedIndexes.Merge heapX indexHeapAB [0, 1]).IndexByEntry 1 = some 1 ∧
    (indexHeapAB 1).Name = bytes "B" :=
  ⟨merge_shadowing heapX indexHeapAB [0, 1] (bytes "x") ⟨0, by decide, by decide⟩,
    by decide, by decide, by decide, by decide⟩

/-! ### Keyword search -/

theorem hasPrefix_iff (s p : Str) : hasPrefix s p = true ↔ p <+: s := by
  induction p generalizing s with
  | nil => cases s <;> simp [hasPrefix]
  | cons b p ih =>
    cases s with
    | nil => simp [hasPrefix]
    | cons a s =>
      simp only [hasPrefix, Bool.and_eq_true, decide_eq_true_eq, ih, List.cons_prefix_cons]
      constructor
      · rintro ⟨h1, h2⟩; exact ⟨h1.symm, h2⟩
      · rintro ⟨h1, h2⟩; exact ⟨h1.symm, h2⟩

theorem contains_iff (s sub : Str) : contains s sub = true ↔ sub <:+: s := by
  induction s with
  | nil =>
    simp only [contains, hasPrefix_iff, List.prefix_nil, List.infix_nil]
  | cons a s ih =>
    simp only [contains, Bool.or_eq_true, hasPrefix_iff, ih, List.infix_cons_iff]

theorem keywordLoop_iff (ct : Nat → Nat) (minScore : Float64) (name kw : Str)
    (keywords : List Str) :
    keywordLoop ct minScore name kw keywords = true ↔
      ∃ k ∈ keywords, keywordMatches ct minScore name kw k = true := by
  induction keywords with
  | nil => simp [keywordLoop]
  | cons k ks ih =>
    by_cases h : keywordMatches ct minScore name kw k = true
    · simp [keywordLoop, h]
    · simp [keywordLoop, h, ih]

theorem keywordScan_fold (ct : Nat → Nat) (minScore : Float64) (name kw : Str)
    (keywords : List Str) (b : Bool) :
    keywords.foldl (fun found k => found || keywordMatches ct minScore name kw k) b =
      (b || keywordLoop ct minScore name kw keywords) := by
  induction keywords generalizing b with
  | nil => simp [keywordLoop]
  | cons k ks ih =>
    rw [List.foldl_cons, ih]
    cases b <;> cases h : keywordMatches ct minScore name kw k <;> simp [keywordLoop, h]

theorem keywordScan_eq_keywordLoop (ct : Nat → Nat) (minScore : Float64) (name kw : Str)
    (keywords : List Str) :
    keywordScan ct minScore name kw keywords = keywordLoop ct minScore name kw keywords := by
  unfold keywordScan
  rw [keywordScan_fold]
  simp

theorem mem_foldl_insert_if (test : Ptr → Bool) (l : List Ptr) (init : Finset Ptr) (e : Ptr) :
    e ∈ l.foldl (fun found entry => if test entry then insert entry found else found) init ↔
      e ∈ init ∨ (e ∈ l ∧ test e = true) := by
  induction l generalizing init with
  | nil => simp
  | cons a l ih =>
    rw [List.foldl_cons, ih]
    by_cases ha : test a = true
    · simp only [ha, if_true, Finset.mem_insert, List.mem_cons]
      constructor
      · rintro ((h | h) | h)
        · exact Or.inr ⟨Or.inl h, by rw [h]; exact ha⟩
        · exact Or.inl h
        · exact Or.inr ⟨Or.inr h.1, h.2⟩
      · rintro (h | ⟨h | h, h2⟩)
        · exact Or.inl (Or.inr h)
        · exact Or.inl (Or.inl h)
        · exact Or.inr ⟨h, h2⟩
    · simp only [ha, List.mem_cons]
      constructor
      · rintro (h | h)
        · exact Or.inl h
        · exact Or.inr ⟨Or.inr h.1, h.2⟩
      · rintro (h | ⟨h | h, h2⟩)
        · exact Or.inl h
        · rw [h] at h2; exact absurd h2 ha
        · exact Or.inr ⟨h, h2⟩

theorem mem_searchByKeywords (ct : Nat → Nat) (hp : Heap) (i : Index) (minScore : Float64)
    (keywords : List Str) (e : Ptr) :
    e ∈ i.SearchByKeywords ct hp minScore keywords ↔
      e ∈ i.Entries ∧ ∃ k ∈ keywords,
        (score ct (hp e).Name k).ge minScore = true ∨
          k <:+: join (hp e).Keywords (bytes " ") := by
  unfold Index.SearchByKeywords searchMatches
  rw [Finset.mem_val, mem_foldl_insert_if
    (fun entry => keywordLoop ct minScore (hp entry).Name
      (join (hp entry).Keywords (bytes " ")) keywords)]
  simp only [Finset.not_mem_empty, false_or, keywordLoop_iff, keywordMatches,
    Bool.or_eq_true, contains_iff]

theorem levenshteinDistance_rule_rule :
    levenshteinDistance caseRangesExcerpt (bytes "rule") (bytes "rule") = 0 := by decide

set_option maxRecDepth 100000 in
theorem levenshteinDistance_different_rule :
    levenshteinDistance caseRangesExcerpt (bytes "completely-different") (bytes "rule") = 18 := by
  decide

/-- C3: an entry is in the result of `SearchByKeywords` exactly when it is in the sequence
and some supplied keyword scores at least `minScore` against its name or occurs as a
contiguous run of bytes in its keywords joined by single spaces; the result lists every
such entry once; the search without the `break` has the same result; with `minScore` 0.9
and the keyword `rule` the entry named `rule` is returned and the entry named
`completely-different`, whose keywords do not contain `rule`, is not. -/
theorem searchByKeywords_membership (ct : Nat → Nat) (hp : Heap) (i : Index)
    (minScore : Float64) (keywords : List Str) :
    (∀ e, e ∈ i.SearchByKeywords ct hp minScore keywords ↔
      e ∈ i.Entries ∧ ∃ k ∈ keywords,
        (score ct (hp e).Name k).ge minScore = true ∨
          k <:+: join (hp e).Keywords (bytes " ")) ∧
    (i.SearchByKeywords ct hp minScore keywords).Nodup ∧
    (∀ e ∈ i.SearchByKeywords ct hp minScore keywords,
      (i.SearchByKeywords ct hp minScore keywords).count e = 1) ∧
    searchWithoutBreak ct hp i minScore keywords
      = i.SearchByKeywords ct hp minScore keywords ∧
    (0 ∈ indexRules.SearchByKeywords caseRangesExcerpt heapRules
        (Float64.fin (9 / 10)) [bytes "rule"] ∧
      1 ∉ indexRules.SearchByKeywords caseRangesExcerpt heapRules
        (Float64.fin (9 / 10)) [bytes "rule"]) := by
  have hnodup : (i.SearchByKeywords ct hp minScore keywords).Nodup :=
    (searchMatches ct hp i minScore keywords).nodup
  refine ⟨mem_searchByKeywords ct hp i minScore keywords, hnodup,
    fun e he => Multiset.count_eq_one_of_mem hnodup he, ?_, ?_, ?_⟩
  · unfold searchWithoutBreak Index.SearchByKeywords searchMatches
    simp only [keywordScan_eq_keywordLoop]
  · rw [mem_searchByKeywords]
    refine ⟨by decide, bytes "rule", by simp, Or.inl ?_⟩
    have h0 : (heapRules 0).Name = bytes "rule" := by decide
    rw [h0]
    unfold score
    rw [levenshteinDistance_rule_rule]
    have hl : (bytes "rule").length = 4 := by decide
    rw [hl]
    norm_num [Float64.div, Float64.ge]
  · rw [mem_searchByKeywords]
    rintro ⟨-, k, hk, h⟩
    rw [List.mem_singleton] at hk
    subst hk
    rcases h with h | h
    · have h1 : (heapRules 1).Name = bytes "completely-different" := by decide
      rw [h1] at h
      unfold score at h
      rw [levenshteinDistance_different_rule] at h
      have hl : (bytes "rule").length = 4 := by decide
      have hl2 : (bytes "completely-different").length = 20 := by decide
      rw [hl, hl2] at h
      norm_num [Float64.div, Float64.ge] at h
    · rw [← contains_iff] at h
      revert h
      decide

/-! ### The edit distance -/

theorem lev_nil_left (y : Str) : lev [] y = y.length := by
  rw [lev]; simp

theorem lev_nil_right (x : Str) : lev x [] = x.length := by
  rw [lev]
  by_cases hx : x = []
  · simp [hx]
  · simp [hx]

theorem lev_snoc_snoc (x y : Str) (a b : Nat) :
    lev (x ++ [a]) (y ++ [b]) =
      if a = b then lev x y
      else 1 + min (lev x (y ++ [b])) (min (lev (x ++ [a]) y) (lev x y)) := by
  rw [lev]
  simp

theorem Table.make_hasDim (n m : Nat) : (Table.make n m).HasDim n m := by
  constructor
  · simp [Table.make]
  · intro row hrow
    simp only [Table.make] at hrow
    rw [(List.mem_replicate.1 hrow).2]
    simp

theorem Table.set_hasDim (d : Table) (n m i j v : Nat) (h : d.HasDim n m) :
    (d.set i j v).HasDim n m := by
  by_cases hi : i < d.length
  · constructor
    · simp [Table.set, h.1]
    · intro row hrow
      rcases List.mem_or_eq_of_mem_set hrow with h1 | h1
      · exact h.2 row h1
      · rw [h1, List.length_set]
        have : d.getD i [] ∈ d := by
          rw [List.getD_eq_getElem _ _ hi]
          exact List.getElem_mem hi
        exact h.2 _ this
  · have hid : d.set i j v = d := by
      unfold Table.set
      exact List.set_eq_of_length_le (by omega)
    rw [hid]
    exact h

theorem Table.get_set (d : Table) (n m i j v a b : Nat) (h : d.HasDim n m)
    (hi : i < n) (hj : j < m) :
    (d.set i j v).get a b = if a = i ∧ b = j then v else d.get a b := by
  have hi2 : i < d.length := by rw [h.1]; exact hi
  have hrow : (d.getD i []).length = m := by
    apply h.2
    rw [List.getD_eq_getElem _ _ hi2]
    exact List.getElem_mem hi2
  unfold Table.get Table.set
  by_cases hai : a = i
  · subst hai
    by_cases hbj : b = j
    · subst hbj
      have hrow2 : b < (d[a]).length := by
        rw [List.getD_eq_getElem _ _ hi2] at hrow
        rw [hrow]; exact hj
      simp [List.getElem?_set, hi2, hrow2]
    · have hbj2 : ¬ j = b := fun hc => hbj hc.symm
      simp [List.getElem?_set, hi2, hbj, hbj2]
  · have hai2 : ¬ i = a := fun hc => hai hc.symm
    simp [List.getElem?_set, hai, hai2]

theorem loopFrom_invariant {σ : Type} (body : Nat → σ → σ) (P : Nat → σ → Prop) (n : Nat) :
    ∀ (lo : Nat) (st : σ), P lo st →
      (∀ k st, lo ≤ k → k < lo + n → P k st → P (k + 1) (body k st)) →
      P (lo + n) (loopFrom body lo n st) := by
  induction n with
  | zero => intro lo st h _; simpa [loopFrom] using h
  | succ n ih =>
    intro lo st h hstep
    have h1 := ih (lo + 1) (body lo st) (hstep lo st (le_refl _) (by omega) h)
      (fun k st hk1 hk2 hP => hstep k st (by omega) (by omega) hP)
    rw [loopFrom]
    have e : lo + (n + 1) = lo + 1 + n := by omega
    rw [e]
    exact h1

theorem lev_take_step (s t : Str) (i j : Nat) (hi : 1 ≤ i) (hi2 : i ≤ s.length)
    (hj : 1 ≤ j) (hj2 : j ≤ t.length) :
    lev (s.take i) (t.take j) =
      if s.getD (i - 1) 0 = t.getD (j - 1) 0 then lev (s.take (i - 1)) (t.take (j - 1))
      else 1 + min (lev (s.take (i - 1)) (t.take j))
        (min (lev (s.take i) (t.take (j - 1))) (lev (s.take (i - 1)) (t.take (j - 1)))) := by
  obtain ⟨i0, rfl⟩ : ∃ i0, i = i0 + 1 := ⟨i - 1, by omega⟩
  obtain ⟨j0, rfl⟩ : ∃ j0, j = j0 + 1 := ⟨j - 1, by omega⟩
  have hi3 : i0 < s.length := by omega
  have hj3 : j0 < t.length := by omega
  have hs : s.take (i0 + 1) = s.take i0 ++ [s.getD i0 0] := by
    rw [List.take_succ, List.getD_eq_getElem _ _ hi3, List.getElem?_eq_getElem hi3]
    rfl
  have ht : t.take (j0 + 1) = t.take j0 ++ [t.getD j0 0] := by
    rw [List.take_succ, List.getD_eq_getElem _ _ hj3, List.getElem?_eq_getElem hj3]
    rfl
  simp only [Nat.add_sub_cancel]
  rw [hs, ht, lev_snoc_snoc]

theorem levCell_spec (s t : Str) (j i : Nat) (d : Table)
    (hdim : d.HasDim (s.length + 1) (t.length + 1))
    (hi : 1 ≤ i) (hi2 : i ≤ s.length) (hj : 1 ≤ j) (hj2 : j ≤ t.length)
    (h1 : d.get (i - 1) (j - 1) = lev (s.take (i - 1)) (t.take (j - 1)))
    (h2 : d.get (i - 1) j = lev (s.take (i - 1)) (t.take j))
    (h3 : d.get i (j - 1) = lev (s.take i) (t.take (j - 1))) :
    (levCell s t j i d).HasDim (s.length + 1) (t.length + 1) ∧
    ∀ a b, (levCell s t j i d).get a b =
      if a = i ∧ b = j then lev (s.take i) (t.take j) else d.get a b := by
  unfold levCell
  by_cases hc : s.getD (i - 1) 0 = t.getD (j - 1) 0
  · rw [if_pos hc]
    refine ⟨Table.set_hasDim d _ _ i j _ hdim, fun a b => ?_⟩
    rw [Table.get_set d _ _ i j _ a b hdim (by omega) (by omega),
      lev_take_step s t i j hi hi2 hj hj2, if_pos hc, h1]
  · rw [if_neg hc]
    refine ⟨Table.set_hasDim d _ _ i j _ hdim, fun a b => ?_⟩
    rw [Table.get_set d _ _ i j _ a b hdim (by omega) (by omega),
      lev_take_step s t i j hi hi2 hj hj2, if_neg hc, h1, h2, h3]
    have hmin : ∀ x y z : Nat,
        (if z < (if y < x then y else x) then z else (if y < x then y else x)) + 1
          = 1 + min x (min y z) := by
      intro x y z
      simp only [Nat.min_def]
      split_ifs <;> omega
    rw [hmin]

/-- The table after the three loops of `levenshteinDistance` holds, at row `a` and column
`b`, the edit distance of the first `a` bytes of `s` and the first `b` bytes of `t`. -/
theorem levTable_spec (s t : Str) (a b : Nat) (ha : a ≤ s.length) (hb : b ≤ t.length) :
    (loopFrom (fun j d => loopFrom (levCell s t j) 1 s.length d) 1 t.length
      (loopFrom (fun j d => d.set 0 j j) 0 (t.length + 1)
        (loopFrom (fun i d => d.set i 0 i) 0 (s.length + 1)
          (Table.make (s.length + 1) (t.length + 1))))).get a b
      = lev (s.take a) (t.take b) := by
  -- first loop: column 0
  have st1 := loopFrom_invariant (fun i (d : Table) => d.set i 0 i)
    (fun k d => d.HasDim (s.length + 1) (t.length + 1) ∧ ∀ x, x < k → d.get x 0 = x)
    (s.length + 1) 0 (Table.make (s.length + 1) (t.length + 1))
    ⟨Table.make_hasDim _ _, fun x hx => by omega⟩
    (by
      intro k d _ hk2 hP
      refine ⟨Table.set_hasDim d _ _ k 0 k hP.1, fun x hx => ?_⟩
      rw [Table.get_set d _ _ k 0 k x 0 hP.1 (by omega) (by omega)]
      by_cases hxk : x = k
      · simp [hxk]
      · simp only [hxk, false_and, if_false]
        exact hP.2 x (by omega))
  -- second loop: row 0
  have st2 := loopFrom_invariant (fun j (d : Table) => d.set 0 j j)
    (fun k d => d.HasDim (s.length + 1) (t.length + 1) ∧
      (∀ x, x ≤ s.length → d.get x 0 = x) ∧ ∀ y, y < k → d.get 0 y = y)
    (t.length + 1) 0 _
    ⟨st1.1, fun x hx => st1.2 x (by omega), fun y hy => by omega⟩
    (by
      intro k d _ hk2 hP
      refine ⟨Table.set_hasDim d _ _ 0 k k hP.1, fun x hx => ?_, fun y hy => ?_⟩
      · rw [Table.get_set d _ _ 0 k k x 0 hP.1 (by omega) (by omega)]
        by_cases hxk : x = 0 ∧ 0 = k
        · rw [if_pos hxk]; omega
        · rw [if_neg hxk]; exact hP.2.1 x hx
      · rw [Table.get_set d _ _ 0 k k 0 y hP.1 (by omega) (by omega)]
        by_cases hyk : y = k
        · simp [hyk]
        · simp only [hyk, and_false, if_false]
          exact hP.2.2 y (by omega))
  -- third loop: the columns 1 .. len(t), each filled from row 1 to row len(s)
  have st3 := loopFrom_invariant (fun j (d : Table) => loopFrom (levCell s t j) 1 s.length d)
    (fun k d => d.HasDim (s.length + 1) (t.length + 1) ∧
      ∀ x y, x ≤ s.length → y ≤ t.length → (x = 0 ∨ y < k) →
        d.get x y = lev (s.take x) (t.take y))
    t.length 1 _
    ⟨st2.1, by
      intro x y hx hy hxy
      rcases hxy with h0 | h0
      · subst h0
        rw [st2.2.2 y (by omega), List.take_zero, lev_nil_left, List.length_take]
        omega
      · have hy0 : y = 0 := by omega
        subst hy0
        rw [st2.2.1 x hx, List.take_zero, lev_nil_right, List.length_take]
        omega⟩
    (by
      intro j d hj1 hj2 hP
      have inner := loopFrom_invariant (levCell s t j)
        (fun k d => d.HasDim (s.length + 1) (t.length + 1) ∧
          ∀ x y, x ≤ s.length → y ≤ t.length → (x = 0 ∨ y < j ∨ (y = j ∧ x < k)) →
            d.get x y = lev (s.take x) (t.take y))
        s.length 1 d
        ⟨hP.1, by
          intro x y hx hy hxy
          apply hP.2 x y hx hy
          omega⟩
        (by
          intro i d2 hi1 hi2 hQ
          have hcell := levCell_spec s t j i d2 hQ.1 hi1 (by omega) hj1 (by omega)
            (hQ.2 _ _ (by omega) (by omega) (by omega))
            (hQ.2 _ _ (by omega) (by omega) (by omega))
            (hQ.2 _ _ (by omega) (by omega) (by omega))
          refine ⟨hcell.1, fun x y hx hy hxy => ?_⟩
          rw [hcell.2]
          by_cases hxy2 : x = i ∧ y = j
          · rw [if_pos hxy2, hxy2.1, hxy2.2]
          · rw [if_neg hxy2]
            apply hQ.2 x y hx hy
            omega)
      refine ⟨inner.1, fun x y hx hy hxy => ?_⟩
      apply inner.2 x y hx hy
      omega)
  exact st3.2 a b ha hb (by omega)

/-- The value `levenshteinDistance` returns, for every case table. -/
theorem levenshteinDistance_eq_lev (ct : Nat → Nat) (s t : Str) :
    levenshteinDistance ct s t = lev (toLower ct s) (toLower ct t) := by
  unfold levenshteinDistance
  simp only
  rw [levTable_spec (toLower ct s) (toLower ct t) _ _ (le_refl _) (le_refl _),
    List.take_length, List.take_length]

theorem toLower_nil (ct : Nat → Nat) : toLower ct [] = [] := by
  simp [toLower]

theorem toLower_ascii_length (ct : Nat → Nat) (s : Str) (h : ∀ c ∈ s, c < 0x80) :
    (toLower ct s).length = s.length := by
  have hall : s.all (fun c => decide (c < 0x80)) = true := by
    simpa [List.all_eq_true] using h
  simp [toLower, hall]

theorem toLower_stroke : toLower caseRangesExcerpt [0xC8, 0xBA] = [0xE2, 0xB1, 0xA5] := by
  simp [toLower, mapRunes, decodeRune, encodeRune, unicodeToLower, caseRangesExcerpt, isCont]

/-- C4, as amended: `levenshteinDistance(s, t)` is the value of the standard recursion on
the lower-cased forms of `s` and `t` (the three equations of the recursion are restated for
`lev`); the distance between a string and the empty string is the length of the lower-cased
form of that string, which is the length of the string itself when the string is ASCII. -/
theorem levenshteinDistance_is_lev (ct : Nat → Nat) (s t : Str) :
    levenshteinDistance ct s t = lev (toLower ct s) (toLower ct t) ∧
    (∀ y : Str, lev [] y = y.length) ∧
    (∀ x : Str, lev x [] = x.length) ∧
    (∀ (x y : Str) (a b : Nat), lev (x ++ [a]) (y ++ [b]) =
      if a = b then lev x y
      else 1 + min (lev x (y ++ [b])) (min (lev (x ++ [a]) y) (lev x y))) ∧
    levenshteinDistance ct s [] = (toLower ct s).length ∧
    levenshteinDistance ct [] t = (toLower ct t).length ∧
    ((∀ c ∈ s, c < 0x80) → levenshteinDistance ct s [] = s.length ∧
      levenshteinDistance ct [] s = s.length) := by
  refine ⟨levenshteinDistance_eq_lev ct s t, lev_nil_left, lev_nil_right, lev_snoc_snoc,
    ?_, ?_, fun h => ⟨?_, ?_⟩⟩
  · rw [levenshteinDistance_eq_lev, toLower_nil, lev_nil_right]
  · rw [levenshteinDistance_eq_lev, toLower_nil, lev_nil_left]
  · rw [levenshteinDistance_eq_lev, toLower_nil, lev_nil_right, toLower_ascii_length ct s h]
  · rw [levenshteinDistance_eq_lev, toLower_nil, lev_nil_left, toLower_ascii_length ct s h]

/-- Counterexample to C4 as stated: the string `"\xc8\xba"` (the letter U+023A) has 2 bytes,
its lower-cased form (the letter U+2C65) has 3, and its distance to the empty string is 3. -/
theorem levenshteinDistance_empty_not_length :
    ¬ (∀ s : Str, levenshteinDistance caseRangesExcerpt s [] = s.length) := by
  intro h
  have h1 := h [0xC8, 0xBA]
  rw [levenshteinDistance_eq_lev, toLower_stroke, toLower_nil, lev_nil_right] at h1
  simp at h1

/-! ### The score -/

theorem lev_le_max (n : Nat) : ∀ x y : Str, x.length + y.length ≤ n →
    lev x y ≤ max x.length y.length := by
  induction n with
  | zero =>
    intro x y h
    have hx : x = [] := List.length_eq_zero.1 (by omega)
    subst hx
    rw [lev_nil_left]
    exact le_max_right _ _
  | succ n ih =>
    intro x y h
    by_cases hx : x = []
    · subst hx
      rw [lev_nil_left]
      exact le_max_right _ _
    by_cases hy : y = []
    · subst hy
      rw [lev_nil_right]
      exact le_max_left _ _
    have ex := List.dropLast_append_getLast hx
    have ey := List.dropLast_append_getLast hy
    have lx : x.length = x.dropLast.length + 1 := by
      conv_lhs => rw [← ex]
      simp
    have ly : y.length = y.dropLast.length + 1 := by
      conv_lhs => rw [← ey]
      simp
    have hrec := ih x.dropLast y.dropLast (by omega)
    rw [← ex, ← ey, lev_snoc_snoc, ex, ey]
    split
    · have : max x.dropLast.length y.dropLast.length ≤ max x.length y.length :=
        max_le_max (by omega) (by omega)
      omega
    · have h1 : min (lev x.dropLast y) (min (lev x y.dropLast) (lev x.dropLast y.dropLast))
          ≤ lev x.dropLast y.dropLast :=
        le_trans (min_le_right _ _) (min_le_right _ _)
      have h2 : max x.length y.length = max x.dropLast.length y.dropLast.length + 1 := by
        rw [lx, ly]
        omega
      omega

/-- Where lower-casing keeps the byte length of both strings (as on ASCII strings), the
score of two strings that are not both empty is a finite value between 0 and 1. -/
theorem score_mem_unit_interval (ct : Nat → Nat) (a b : Str)
    (ha : (toLower ct a).length = a.length) (hb : (toLower ct b).length = b.length)
    (hne : a ≠ [] ∨ b ≠ []) :
    ∃ q : ℚ, score ct a b = Float64.fin q ∧ 0 ≤ q ∧ q ≤ 1 := by
  have hd : levenshteinDistance ct a b ≤ max a.length b.length := by
    rw [levenshteinDistance_eq_lev, ← ha, ← hb]
    exact lev_le_max _ _ _ (le_refl _)
  have hpos : 0 < max a.length b.length := by
    rcases hne with h | h
    · exact lt_of_lt_of_le (List.length_pos.2 h) (le_max_left _ _)
    · exact lt_of_lt_of_le (List.length_pos.2 h) (le_max_right _ _)
  have hcast : max (a.length : ℚ) (b.length : ℚ) = ((max a.length b.length : ℕ) : ℚ) := by
    push_cast
    rfl
  have hL : (0 : ℚ) < ((max a.length b.length : ℕ) : ℚ) := by exact_mod_cast hpos
  have hdq : ((levenshteinDistance ct a b : ℕ) : ℚ) ≤ ((max a.length b.length : ℕ) : ℚ) := by
    exact_mod_cast hd
  have hd0 : (0 : ℚ) ≤ ((levenshteinDistance ct a b : ℕ) : ℚ) := by positivity
  refine ⟨(((max a.length b.length : ℕ) : ℚ) - (levenshteinDistance ct a b : ℚ)) /
    ((max a.length b.length : ℕ) : ℚ), ?_, ?_, ?_⟩
  · unfold score
    simp only [hcast]
    unfold Float64.div
    rw [if_neg (ne_of_gt hL)]
  · exact div_nonneg (by linarith) (le_of_lt hL)
  · rw [div_le_one hL]
    linarith

/-- C5, the code at the failing input: for the 2-byte string `"\xc8\xba"` (the letter
U+023A) and the empty string the distance is 3, the longer length is 2 and the score is
`(2 - 3) / 2 = -1/2`, outside `[0, 1]`. -/
theorem score_below_zero :
    levenshteinDistance caseRangesExcerpt [0xC8, 0xBA] [] = 3 ∧
    max ([0xC8, 0xBA] : Str).length ([] : Str).length = 2 ∧
    score caseRangesExcerpt [0xC8, 0xBA] [] = Float64.fin (-1 / 2) := by
  have hd : levenshteinDistance caseRangesExcerpt [0xC8, 0xBA] [] = 3 := by
    rw [levenshteinDistance_eq_lev, toLower_stroke, toLower_nil, lev_nil_right]
    rfl
  refine ⟨hd, rfl, ?_⟩
  unfold score
  rw [hd]
  norm_num [Float64.div]

/-- C6, the code at the failing input: `score("", "")` divides `0` by `0` and is
not-a-number, for every case table; it is not 1, and it is never `>=` a minimum score. -/
theorem score_empty_empty (ct : Nat → Nat) :
    score ct [] [] = Float64.nan ∧ score ct [] [] ≠ Float64.fin 1 ∧
    ∀ minScore : Float64, (score ct [] []).ge minScore = false := by
  have hd : levenshteinDistance ct [] [] = 0 := by
    rw [levenshteinDistance_eq_lev, toLower_nil, lev_nil_left]
    rfl
  have hs : score ct [] [] = Float64.nan := by
    unfold score
    rw [hd]
    simp [Float64.div]
  refine ⟨hs, ?_, fun m => ?_⟩
  · rw [hs]
    exact fun h => Float64.noConfusion h
  · rw [hs]
    cases m <;> simp [Float64.ge]

/-! ### Sorting -/

theorem sinkLeft_perm (key : Ptr → Str) (x : Ptr) (left : List Ptr) :
    (sinkLeft (fun k j => decide (key k < key j)) x left).Perm (x :: left) := by
  induction left with
  | nil => exact List.Perm.refl _
  | cons y left ih =>
    unfold sinkLeft
    split
    · exact (List.Perm.cons y ih).trans (List.Perm.swap x y left)
    · exact List.Perm.refl _

theorem sinkLeft_sorted (key : Ptr → Str) (x : Ptr) (left : List Ptr)
    (h : left.Pairwise (fun a b => key b ≤ key a)) :
    (sinkLeft (fun k j => decide (key k < key j)) x left).Pairwise
      (fun a b => key b ≤ key a) := by
  induction left with
  | nil => simp [sinkLeft]
  | cons y left ih =>
    rw [List.pairwise_cons] at h
    unfold sinkLeft
    split
    · rename_i hlt
      have hlt2 : key x < key y := by simpa using hlt
      rw [List.pairwise_cons]
      refine ⟨fun z hz => ?_, ih h.2⟩
      rcases List.mem_cons.1 ((sinkLeft_perm key x left).mem_iff.1 hz) with hzx | hzl
      · rw [hzx]; exact le_of_lt hlt2
      · exact h.1 z hzl
    · rename_i hlt
      have hle : key y ≤ key x := by
        have : ¬ key x < key y := by simpa using hlt
        exact not_lt.1 this
      rw [List.pairwise_cons]
      refine ⟨fun z hz => ?_, List.pairwise_cons.2 h⟩
      rcases List.mem_cons.1 hz with hzy | hzl
      · rw [hzy]; exact hle
      · exact le_trans (h.1 z hzl) hle

theorem foldl_sinkLeft_perm (key : Ptr → Str) (l acc : List Ptr) :
    (l.foldl (fun sorted x => sinkLeft (fun k j => decide (key k < key j)) x sorted) acc).Perm
      (l ++ acc) := by
  induction l generalizing acc with
  | nil => exact List.Perm.refl _
  | cons x l ih =>
    rw [List.foldl_cons]
    refine (ih _).trans ?_
    refine ((sinkLeft_perm key x acc).append_left l).trans ?_
    exact (List.perm_middle).trans (List.Perm.refl _)

theorem foldl_sinkLeft_sorted (key : Ptr → Str) (l acc : List Ptr)
    (h : acc.Pairwise (fun a b => key b ≤ key a)) :
    (l.foldl (fun sorted x => sinkLeft (fun k j => decide (key k < key j)) x sorted)
      acc).Pairwise (fun a b => key b ≤ key a) := by
  induction l generalizing acc with
  | nil => exact h
  | cons x l ih =>
    rw [List.foldl_cons]
    exact ih _ (sinkLeft_sorted key x acc h)

theorem foldl_sinkLeft_of_sorted (key : Ptr → Str) (l acc : List Ptr)
    (hacc : ∀ a ∈ acc, ∀ b ∈ l, key a ≤ key b)
    (h : l.Pairwise (fun a b => key a ≤ key b)) :
    l.foldl (fun sorted x => sinkLeft (fun k j => decide (key k < key j)) x sorted) acc
      = l.reverse ++ acc := by
  induction l generalizing acc with
  | nil => rfl
  | cons x l ih =>
    rw [List.pairwise_cons] at h
    have hstep : sinkLeft (fun k j => decide (key k < key j)) x acc = x :: acc := by
      cases acc with
      | nil => rfl
      | cons y rest =>
        have hle : key y ≤ key x := hacc y (List.mem_cons_self _ _) x (List.mem_cons_self _ _)
        have : ¬ key x < key y := not_lt.2 hle
        simp [sinkLeft, this]
    rw [List.foldl_cons, hstep, ih (x :: acc) ?_ h.2]
    · simp
    · intro a ha b hb
      rcases List.mem_cons.1 ha with hax | haacc
      · rw [hax]; exact h.1 b hb
      · exact hacc a haacc b (List.mem_cons_of_mem _ hb)

theorem sortSlice_perm (key : Ptr → Str) (l : List Ptr) :
    (sortSlice (fun k j => decide (key k < key j)) l).Perm l := by
  unfold sortSlice
  refine (List.reverse_perm _).trans ?_
  simpa using foldl_sinkLeft_perm key l []

theorem sortSlice_sorted (key : Ptr → Str) (l : List Ptr) :
    (sortSlice (fun k j => decide (key k < key j)) l).Pairwise (fun a b => key a ≤ key b) := by
  unfold sortSlice
  rw [List.pairwise_reverse]
  exact foldl_sinkLeft_sorted key l [] List.Pairwise.nil

theorem sortSlice_of_sorted (key : Ptr → Str) (l : List Ptr)
    (h : l.Pairwise (fun a b => key a ≤ key b)) :
    sortSlice (fun k j => decide (key k < key j)) l = l := by
  unfold sortSlice
  rw [foldl_sinkLeft_of_sorted key l [] (fun a ha => by simp at ha) h]
  simp

/-- Two sorted arrangements of the same entries are equal when no two entries share a
name: the sorted sequence does not depend on how ties would be ordered. -/
theorem sorted_perm_unique (key : Ptr → Str) (l1 l2 : List Ptr) (hperm : l1.Perm l2)
    (hnodup : (l1.map key).Nodup)
    (h1 : l1.Pairwise (fun a b => key a ≤ key b))
    (h2 : l2.Pairwise (fun a b => key a ≤ key b)) : l1 = l2 := by
  have hnodup2 : (l2.map key).Nodup := (hperm.map key).nodup_iff.1 hnodup
  have strict : ∀ l : List Ptr, (l.map key).Nodup → l.Pairwise (fun a b => key a ≤ key b) →
      l.Pairwise (fun a b => key a < key b) := by
    intro l hn hs
    have hne : l.Pairwise (fun a b => key a ≠ key b) := List.pairwise_map.1 hn
    exact (hs.and hne).imp (fun h => lt_of_le_of_ne h.1 h.2)
  haveI : IsAntisymm Ptr (fun a b => key a < key b) :=
    ⟨fun a b hab hba => absurd hab (lt_asymm hba)⟩
  exact List.eq_of_perm_of_sorted hperm (strict l1 hnodup h1) (strict l2 hnodup2 h2)

/-! ### Normalize -/

theorem namesResolve_iff (hp : Heap) (m : GoMap Str Ptr) (l : List Ptr) :
    namesResolve hp m l = true ↔ ∀ e ∈ l, (hp e).Name ∈ m.keys := by
  induction l with
  | nil => simp [namesResolve]
  | cons a l ih =>
    unfold namesResolve
    by_cases h : (AList.lookup (hp a).Name m).isSome = true
    · have hmem : (hp a).Name ∈ m.keys := AList.mem_keys.1 (AList.lookup_isSome.1 h)
      rw [if_pos h, ih]
      constructor
      · intro h2 e he
        rcases List.mem_cons.1 he with hea | hel
        · rw [hea]; exact hmem
        · exact h2 e hel
      · intro h2 e he
        exact h2 e (List.mem_cons_of_mem _ he)
    · rw [if_neg h]
      constructor
      · intro h2; cases h2
      · intro h2
        exact absurd (AList.lookup_isSome.2 (AList.mem_keys.2 (h2 a (List.mem_cons_self _ _)))) h

theorem normalize_some_eq (hp : Heap) (ix : Index) :
    Index.Normalize hp (some ix) =
      if ix.entryByName.entries.length ≠ ix.Entries.length then
        (some ix, some (bytes "inconsistent index state"))
      else if namesResolve hp ix.entryByName ix.Entries = false then
        (some ix, some (bytes "inconsistent index state"))
      else
        (some ⟨ix.Name,
            sortSlice (fun k j => decide ((hp k).Name < (hp j).Name)) ix.Entries,
            ix.entryByName⟩, none) := rfl

/-- C7: when `Normalize` succeeds, the new sequence is a permutation of the old one, it is
sorted ascending by name in the byte-wise order, the index name and the lookup map are
unchanged, and a second `Normalize` succeeds and leaves the index as the first left it.
When no two entries share a name, the new sequence is the only sorted arrangement of the
entries. -/
theorem normalize_sorted_idempotent (hp : Heap) (ix : Index)
    (hok : (Index.Normalize hp (some ix)).2 = none) :
    ∃ ix2 : Index, (Index.Normalize hp (some ix)).1 = some ix2 ∧
      ix2.Entries.Perm ix.Entries ∧
      ix2.Entries.Pairwise (fun a b => (hp a).Name ≤ (hp b).Name) ∧
      ix2.entryByName = ix.entryByName ∧ ix2.Name = ix.Name ∧
      Index.Normalize hp (some ix2) = (some ix2, none) ∧
      ((entryNames hp ix.Entries).Nodup → ∀ l : List Ptr, l.Perm ix.Entries →
        l.Pairwise (fun a b => (hp a).Name ≤ (hp b).Name) → l = ix2.Entries) := by
  rw [normalize_some_eq] at hok ⊢
  by_cases h1 : ix.entryByName.entries.length ≠ ix.Entries.length
  · rw [if_pos h1] at hok; cases hok
  rw [if_neg h1] at hok ⊢
  by_cases h2 : namesResolve hp ix.entryByName ix.Entries = false
  · rw [if_pos h2] at hok; cases hok
  rw [if_neg h2]
  have hperm := sortSlice_perm (fun p => (hp p).Name) ix.Entries
  have hsorted := sortSlice_sorted (fun p => (hp p).Name) ix.Entries
  refine ⟨_, rfl, hperm, hsorted, rfl, rfl, ?_, ?_⟩
  swap
  · intro hnodup l hl hls
    have hnodup2 : (l.map (fun p => (hp p).Name)).Nodup :=
      (hl.map (fun p => (hp p).Name)).nodup_iff.2 hnodup
    exact sorted_perm_unique (fun p => (hp p).Name) l _ (hl.trans hperm.symm) hnodup2 hls
      hsorted
  rw [normalize_some_eq]
  have h1b : ¬ (ix.entryByName.entries.length ≠
      (sortSlice (fun k j => decide ((hp k).Name < (hp j).Name)) ix.Entries).length) := by
    rw [hperm.length_eq]; exact h1
  have h2b : ¬ (namesResolve hp ix.entryByName
      (sortSlice (fun k j => decide ((hp k).Name < (hp j).Name)) ix.Entries) = false) := by
    have h3 : namesResolve hp ix.entryByName ix.Entries = true := by
      simpa using h2
    rw [namesResolve_iff] at h3
    have h4 : namesResolve hp ix.entryByName
        (sortSlice (fun k j => decide ((hp k).Name < (hp j).Name)) ix.Entries) = true := by
      rw [namesResolve_iff]
      exact fun e he => h3 e (hperm.mem_iff.1 he)
    rw [h4]; simp
  simp only [if_neg h1b, if_neg h2b]
  rw [sortSlice_of_sorted (fun p => (hp p).Name) _ hsorted]

/-- Witness of C7: the index with the entries named `y` and `x`, in this order. -/
theorem normalize_sorted_idempotent_witness :
    ∃ ix2 : Index, (Index.Normalize heapX (some indexYX)).1 = some ix2 ∧
      ix2.Entries.Perm indexYX.Entries ∧
      ix2.Entries.Pairwise (fun a b => (heapX a).Name ≤ (heapX b).Name) ∧
      ix2.entryByName = indexYX.entryByName ∧ ix2.Name = indexYX.Name ∧
      Index.Normalize heapX (some ix2) = (some ix2, none) ∧
      ((entryNames heapX indexYX.Entries).Nodup → ∀ l : List Ptr, l.Perm indexYX.Entries →
        l.Pairwise (fun a b => (heapX a).Name ≤ (heapX b).Name) → l = ix2.Entries) :=
  normalize_sorted_idempotent heapX indexYX (by decide)

/-! ### Remove -/

theorem removeLoop_none (e : Ptr) (l : List Ptr) (h : e ∉ l) : removeLoop e l = none := by
  induction l with
  | nil => rfl
  | cons a l ih =>
    have h1 : ¬ a = e := fun hc => h (by rw [hc]; exact List.mem_cons_self _ _)
    have h2 : e ∉ l := fun hc => h (List.mem_cons_of_mem _ hc)
    simp [removeLoop, h1, ih h2]

/-- C8: `Remove(e)` of an entry pointer that is not in the sequence (whatever the names in
the sequence) returns the error `cannot remove <e.Name>: not found`, whose text contains
`e.Name`, and leaves the index unchanged. -/
theorem remove_absent (hp : Heap) (i : Index) (e : Ptr) (habsent : e ∉ i.Entries) :
    i.Remove hp e =
      (i, some (bytes "cannot remove " ++ (hp e).Name ++ bytes ": not found")) ∧
    (hp e).Name <:+: bytes "cannot remove " ++ (hp e).Name ++ bytes ": not found" ∧
    contains (bytes "cannot remove " ++ (hp e).Name ++ bytes ": not found") (hp e).Name
      = true := by
  have hinfix : (hp e).Name <:+:
      bytes "cannot remove " ++ (hp e).Name ++ bytes ": not found" :=
    ⟨bytes "cannot remove ", bytes ": not found", rfl⟩
  refine ⟨?_, hinfix, (contains_iff _ _).2 hinfix⟩
  unfold Index.Remove
  rw [removeLoop_none e i.Entries habsent]

/-- Witness of C8: the index holds the entry at address 0, named `x`; the entry at address
1 is another entry with the same name. -/
theorem remove_absent_witness :
    (1 : Ptr) ∉ ((New (bytes "idx")).Upsert heapX 0).Entries ∧
    (heapX 1).Name = (heapX 0).Name ∧
    ((New (bytes "idx")).Upsert heapX 0).Remove heapX 1 =
      ((New (bytes "idx")).Upsert heapX 0,
        some (bytes "cannot remove " ++ (heapX 1).Name ++ bytes ": not found")) :=
  ⟨by decide, by decide,
    (remove_absent heapX ((New (bytes "idx")).Upsert heapX 0) 1 (by decide)).1⟩

/-! ### The check of Normalize -/

/-- C9, the code at the failing input: the index `indexDup` has the name `x` twice in its
sequence and the keys `x`, `y` in its lookup map, and `Normalize` returns no error. -/
theorem normalize_accepts_duplicate :
    (Index.Normalize heapX (some indexDup)).2 = none ∧
    ¬ (entryNames heapX indexDup.Entries).Nodup ∧
    entryNames heapX indexDup.Entries = [bytes "x", bytes "x"] ∧
    indexDup.entryByName.keys = [bytes "y", bytes "x"] := by
  decide

/-- C10: `Normalize` returns an error exactly when the receiver is nil, or the lookup map
and the sequence differ in size, or some entry of the sequence has a name that is not a key
of the lookup map; whenever it returns an error it leaves the index as it was. -/
theorem normalize_error_iff (hp : Heap) (i : Option Index) :
    ((Index.Normalize hp i).2 ≠ none ↔
      i = none ∨ ∃ ix, i = some ix ∧
        (ix.entryByName.entries.length ≠ ix.Entries.length ∨
          ∃ e ∈ ix.Entries, (hp e).Name ∉ ix.entryByName.keys)) ∧
    ((Index.Normalize hp i).2 ≠ none → (Index.Normalize hp i).1 = i) := by
  cases i with
  | none => simp [Index.Normalize]
  | some ix =>
    rw [normalize_some_eq]
    by_cases h1 : ix.entryByName.entries.length ≠ ix.Entries.length
    · rw [if_pos h1]
      exact ⟨⟨fun _ => Or.inr ⟨ix, rfl, Or.inl h1⟩, fun _ => by simp⟩, fun _ => rfl⟩
    rw [if_neg h1]
    by_cases h2 : namesResolve hp ix.entryByName ix.Entries = false
    · rw [if_pos h2]
      refine ⟨⟨fun _ => Or.inr ⟨ix, rfl, Or.inr ?_⟩, fun _ => by simp⟩, fun _ => rfl⟩
      by_contra hc
      have : namesResolve hp ix.entryByName ix.Entries = true := by
        rw [namesResolve_iff]
        intro e he
        by_contra hne
        exact hc ⟨e, he, hne⟩
      rw [this] at h2
      cases h2
    · rw [if_neg h2]
      refine ⟨⟨fun h => absurd rfl h, ?_⟩, fun h => absurd rfl h⟩
      rintro (h | ⟨ix2, hix, h | ⟨e, he, hne⟩⟩)
      · cases h
      · cases hix; exact absurd h h1
      · cases hix
        have h3 : namesResolve hp ix.entryByName ix.Entries = true := by simpa using h2
        rw [namesResolve_iff] at h3
        exact absurd (h3 e he) hne

/-! ### The invariant -/

theorem lookup_insert_eq (m : GoMap Str Ptr) (k n : Str) (v : Ptr) :
    (m.insert k v).lookup n = if n = k then some v else m.lookup n := by
  by_cases h : n = k
  · rw [if_pos h, h, AList.lookup_insert]
  · rw [if_neg h, AList.lookup_insert_ne h]

theorem lookup_erase_eq (m : GoMap Str Ptr) (k n : Str) :
    (m.erase k).lookup n = if n = k then none else m.lookup n := by
  by_cases h : n = k
  · rw [if_pos h, h, AList.lookup_erase]
  · rw [if_neg h, AList.lookup_erase_ne h]

theorem name_injective_of_nodup (hp : Heap) (l : List Ptr) (h : (entryNames hp l).Nodup)
    (p q : Ptr) (hp1 : p ∈ l) (hq : q ∈ l) (hn : (hp p).Name = (hp q).Name) : p = q :=
  List.inj_on_of_nodup_map h hp1 hq hn

theorem mem_keys_iff_of_lookup (hp : Heap) (m : GoMap Str Ptr) (l : List Ptr)
    (h : ∀ n p, m.lookup n = some p ↔ (p ∈ l ∧ (hp p).Name = n)) (n : Str) :
    n ∈ m.keys ↔ n ∈ entryNames hp l := by
  rw [← AList.mem_keys, ← AList.lookup_isSome, Option.isSome_iff_exists]
  simp only [h, entryNames, List.mem_map]

theorem map_length_of_lookup (hp : Heap) (m : GoMap Str Ptr) (l : List Ptr)
    (hnodup : (entryNames hp l).Nodup)
    (h : ∀ n p, m.lookup n = some p ↔ (p ∈ l ∧ (hp p).Name = n)) :
    m.entries.length = l.length := by
  have hperm : m.keys.Perm (entryNames hp l) :=
    (List.perm_ext_iff_of_nodup m.keys_nodup hnodup).2
      (fun n => mem_keys_iff_of_lookup hp m l h n)
  have h1 := hperm.length_eq
  simpa [AList.keys, List.keys, entryNames] using h1

theorem invariant_new (hp : Heap) (name : Str) : (New name).Invariant hp := by
  refine ⟨by simp [New, entryNames], fun n p => ?_⟩
  simp [New, AList.lookup_empty]

/-! ### Read -/

theorem readLoop_spec (hp : Heap) (rest : List Ptr) :
    ∀ (seen : List Ptr) (m : GoMap Str Ptr),
      (entryNames hp seen).Nodup →
      (∀ n p, m.lookup n = some p ↔ (p ∈ seen ∧ (hp p).Name = n)) →
      ((entryNames hp (seen ++ rest)).Nodup →
        ∃ m2 : GoMap Str Ptr,
          (∀ tail, readLoop hp (rest.map some ++ tail) m = readLoop hp tail m2) ∧
          ∀ n p, m2.lookup n = some p ↔ (p ∈ seen ++ rest ∧ (hp p).Name = n)) ∧
      (¬ (entryNames hp (seen ++ rest)).Nodup →
        ∃ r1 e r2, ∃ m2 : GoMap Str Ptr,
          rest = r1 ++ e :: r2 ∧ (entryNames hp (seen ++ r1)).Nodup ∧
          (hp e).Name ∈ entryNames hp (seen ++ r1) ∧
          ∀ tail, readLoop hp (rest.map some ++ tail) m =
            some (m2, some (bytes "duplicate entry found: " ++ (hp e).Name))) := by
  induction rest with
  | nil =>
    intro seen m hseen hm
    rw [List.append_nil]
    exact ⟨fun _ => ⟨m, fun tail => rfl, hm⟩, fun h => absurd hseen h⟩
  | cons e rest ih =>
    intro seen m hseen hm
    by_cases hdup : (m.lookup (hp e).Name).isSome = true
    · have hmem : (hp e).Name ∈ entryNames hp seen := by
        rw [← mem_keys_iff_of_lookup hp m seen hm, ← AList.mem_keys, ← AList.lookup_isSome]
        exact hdup
      refine ⟨fun hnd => ?_, fun _ => ⟨[], e, rest, m, rfl, ?_, ?_, fun tail => ?_⟩⟩
      · exfalso
        simp only [entryNames, List.map_append, List.map_cons] at hnd hmem
        have := (List.nodup_append.1 hnd).2.2
        exact this hmem (List.mem_cons_self _ _)
      · simpa using hseen
      · simpa using hmem
      · simp only [List.map_cons, List.cons_append, readLoop, hdup, if_true]
    · have hnot : (hp e).Name ∉ entryNames hp seen := by
        rw [← mem_keys_iff_of_lookup hp m seen hm, ← AList.mem_keys, ← AList.lookup_isSome]
        exact hdup
      have hseen2 : (entryNames hp (seen ++ [e])).Nodup := by
        simp only [entryNames, List.map_append, List.map_cons, List.map_nil]
        exact List.Nodup.append hseen (List.nodup_singleton _) (by simpa [entryNames] using hnot)
      have hm2 : ∀ n p, (m.insert (hp e).Name e).lookup n = some p ↔
          (p ∈ seen ++ [e] ∧ (hp p).Name = n) := by
        intro n p
        rw [lookup_insert_eq]
        by_cases hn : n = (hp e).Name
        · rw [if_pos hn]
          constructor
          · intro h
            have hpe : e = p := Option.some.inj h
            subst hpe
            exact ⟨by simp, hn.symm⟩
          · rintro ⟨h1, h2⟩
            rcases List.mem_append.1 h1 with h3 | h3
            · exfalso
              apply hnot
              simp only [entryNames, List.mem_map]
              exact ⟨p, h3, by rw [h2, hn]⟩
            · rw [List.mem_singleton.1 h3]
        · rw [if_neg hn, hm]
          constructor
          · rintro ⟨h1, h2⟩
            exact ⟨List.mem_append_left _ h1, h2⟩
          · rintro ⟨h1, h2⟩
            rcases List.mem_append.1 h1 with h3 | h3
            · exact ⟨h3, h2⟩
            · exfalso
              rw [List.mem_singleton.1 h3] at h2
              exact hn h2.symm
      have hrec := ih (seen ++ [e]) (m.insert (hp e).Name e) hseen2 hm2
      have happ : seen ++ [e] ++ rest = seen ++ e :: rest := by simp
      have hloop : ∀ tail, readLoop hp ((e :: rest).map some ++ tail) m =
          readLoop hp (rest.map some ++ tail) (m.insert (hp e).Name e) := by
        intro tail
        simp only [List.map_cons, List.cons_append, readLoop, hdup]
        rfl
      rw [happ] at hrec
      refine ⟨fun hnd => ?_, fun hnd => ?_⟩
      · obtain ⟨m2, h1, h2⟩ := hrec.1 hnd
        exact ⟨m2, fun tail => by rw [hloop, h1], h2⟩
      · obtain ⟨r1, e2, r2, m2, h1, h2, h3, h4⟩ := hrec.2 hnd
        refine ⟨e :: r1, e2, r2, m2, by rw [h1]; rfl, ?_, ?_, fun tail => by rw [hloop, h4]⟩
        · simpa using h2
        · simpa using h3

theorem readLoop_decoded (hp : Heap) (entries : List Ptr) :
    ((entryNames hp entries).Nodup →
      ∃ m2 : GoMap Str Ptr,
        (∀ tail, readLoop hp (entries.map some ++ tail) ∅ = readLoop hp tail m2) ∧
        ∀ n p, m2.lookup n = some p ↔ (p ∈ entries ∧ (hp p).Name = n)) ∧
    (¬ (entryNames hp entries).Nodup →
      ∃ r1 e r2, ∃ m2 : GoMap Str Ptr,
        entries = r1 ++ e :: r2 ∧ (entryNames hp r1).Nodup ∧
        (hp e).Name ∈ entryNames hp r1 ∧
        ∀ tail, readLoop hp (entries.map some ++ tail) ∅ =
          some (m2, some (bytes "duplicate entry found: " ++ (hp e).Name))) := by
  have hspec := readLoop_spec hp entries [] ∅ (by simp [entryNames])
    (fun n p => by simp [AList.lookup_empty])
  simp only [List.nil_append] at hspec
  exact hspec

theorem read_eq_of_decoded {FS : Type} (hp : Heap) (lib : Lib FS) (fs : FS) (i : Index)
    (path content : Str) (decoded : List (Option Ptr))
    (hread : lib.readFile fs (lib.clean path) = Except.ok content)
    (hdec : lib.unmarshal content i.Entries = (decoded, none)) :
    i.Read hp lib fs path =
      match readLoop hp decoded ∅ with
      | none => ReadOutcome.panic
      | some (m, err) => ReadOutcome.returned decoded m err := by
  simp only [Index.Read, hread, hdec]

/-- When the entries of the decoded sequence before its first nil pointer, or all its
entries, hold a repeated name, `Read` returns the error for the first repeat. -/
theorem read_duplicate_before_nil {FS : Type} (hp : Heap) (lib : Lib FS) (fs : FS)
    (i : Index) (path content : Str) (before : List Ptr) (after : List (Option Ptr))
    (hread : lib.readFile fs (lib.clean path) = Except.ok content)
    (hdec : lib.unmarshal content i.Entries = (before.map some ++ after, none))
    (hdup : ¬ (entryNames hp before).Nodup) :
    ∃ r1 e r2, ∃ m : GoMap Str Ptr,
      before = r1 ++ e :: r2 ∧ (entryNames hp r1).Nodup ∧ (hp e).Name ∈ entryNames hp r1 ∧
      i.Read hp lib fs path = ReadOutcome.returned (before.map some ++ after) m
        (some (bytes "duplicate entry found: " ++ (hp e).Name)) := by
  rw [read_eq_of_decoded hp lib fs i path content _ hread hdec]
  obtain ⟨r1, e, r2, m2, h1, h2, h3, h4⟩ := (readLoop_decoded hp before).2 hdup
  exact ⟨r1, e, r2, m2, h1, h2, h3, by rw [h4 after]⟩

theorem read_of_nodup {FS : Type} (hp : Heap) (lib : Lib FS) (fs : FS) (i : Index)
    (path content : Str) (entries : List Ptr)
    (hread : lib.readFile fs (lib.clean path) = Except.ok content)
    (hdec : lib.unmarshal content i.Entries = (entries.map some, none))
    (hnodup : (entryNames hp entries).Nodup) :
    ∃ m : GoMap Str Ptr,
      i.Read hp lib fs path = ReadOutcome.returned (entries.map some) m none ∧
      Index.Invariant hp ⟨i.Name, entries, m⟩ ∧ m.entries.length = entries.length := by
  rw [read_eq_of_decoded hp lib fs i path content _ hread hdec]
  obtain ⟨m2, h1, h2⟩ := (readLoop_decoded hp entries).1 hnodup
  have h3 := h1 []
  rw [List.append_nil] at h3
  refine ⟨m2, by rw [h3]; rfl, ⟨hnodup, h2⟩, map_length_of_lookup hp m2 entries hnodup h2⟩

theorem upsertLoop_at (hp : Heap) (e : Ptr) (l : List Ptr)
    (huniq : (entryNames hp l).Nodup) :
    ∀ (k : Nat) (hk : k < l.length), (hp l[k]).Name = (hp e).Name →
      upsertLoop hp e l = some (l.set k e) := by
  induction l with
  | nil => intro k hk; simp at hk
  | cons a l ih =>
    intro k hk hname
    have hnd : (hp a).Name ∉ entryNames hp l ∧ (entryNames hp l).Nodup := by
      simpa [entryNames] using huniq
    cases k with
    | zero =>
      have ha : (hp a).Name = (hp e).Name := by simpa using hname
      simp [upsertLoop, ha]
    | succ k =>
      have hk2 : k < l.length := by simpa using hk
      have hname2 : (hp l[k]).Name = (hp e).Name := by simpa using hname
      have hne : ¬ (hp a).Name = (hp e).Name := by
        intro hc
        apply hnd.1
        simp only [entryNames, List.mem_map]
        exact ⟨l[k], List.getElem_mem hk2, by rw [hname2, hc]⟩
      rw [upsertLoop, if_neg hne, ih hnd.2 k hk2 hname2]
      rfl

/-- C13: on an index whose sequence has no repeated name, if position `k` holds an entry
with the name of `e`, then `Upsert(e)` gives the old sequence with position `k` set to `e`:
same length, `e` at position `k`, every other position unchanged; if no entry has the name
of `e`, `Upsert(e)` gives the old sequence followed by `e`. -/
theorem upsert_frame (hp : Heap) (i : Index) (e : Ptr)
    (huniq : (entryNames hp i.Entries).Nodup) :
    (∀ (k : Nat) (hk : k < i.Entries.length), (hp i.Entries[k]).Name = (hp e).Name →
      (i.Upsert hp e).Entries = i.Entries.set k e ∧
      (i.Upsert hp e).Entries.length = i.Entries.length ∧
      (i.Upsert hp e).Entries[k]? = some e ∧
      ∀ j, j ≠ k → (i.Upsert hp e).Entries[j]? = i.Entries[j]?) ∧
    ((hp e).Name ∉ entryNames hp i.Entries →
      (i.Upsert hp e).Entries = i.Entries ++ [e] ∧
      ∀ j, j < i.Entries.length → (i.Upsert hp e).Entries[j]? = i.Entries[j]?) := by
  constructor
  · intro k hk hname
    have hset : (i.Upsert hp e).Entries = i.Entries.set k e := by
      unfold Index.Upsert
      rw [upsertLoop_at hp e i.Entries huniq k hk hname]
    rw [hset]
    refine ⟨rfl, List.length_set _ _ _, List.getElem?_set_self hk, fun j hj => ?_⟩
    exact List.getElem?_set_ne (fun hc => hj hc.symm)
  · intro habsent
    have happ : (i.Upsert hp e).Entries = i.Entries ++ [e] := by
      unfold Index.Upsert
      rw [(upsertLoop_none_iff hp e i.Entries).2 habsent]
    rw [happ]
    exact ⟨rfl, fun j hj => List.getElem?_append_left hj⟩

/-- Witness of C13: the index with the entries at the addresses 2 and 0 of `heapX`, and
the entry at address 1, which has the name of the entry at address 0. -/
theorem upsert_frame_witness :
    (indexYX.Upsert heapX 1).Entries = indexYX.Entries.set 1 1 ∧
    indexYX.Entries = [2, 0] ∧ (indexYX.Upsert heapX 1).Entries = [2, 1] :=
  ⟨((upsert_frame heapX indexYX 1 (by decide)).1 1 (by decide) (by decide)).1,
    by decide, by decide⟩

/-! ### Remove of a present entry -/

theorem removeLoop_mem (e : Ptr) (l : List Ptr) (h : e ∈ l) :
    removeLoop e l = some (l.erase e) := by
  induction l with
  | nil => simp at h
  | cons a l ih =>
    by_cases hae : a = e
    · simp [removeLoop, hae]
    · have hmem : e ∈ l := by
        rcases List.mem_cons.1 h with h1 | h1
        · exact absurd h1.symm hae
        · exact h1
      rw [removeLoop, if_neg hae, ih hmem, List.erase_cons]
      have : (a == e) = false := by simpa using hae
      simp [this]

theorem remove_eq_of_mem (hp : Heap) (i : Index) (e : Ptr) (hmem : e ∈ i.Entries) :
    i.Remove hp e = (⟨i.Name, i.Entries.erase e, i.entryByName.erase (hp e).Name⟩, none) := by
  unfold Index.Remove
  rw [removeLoop_mem e i.Entries hmem]

/-- C14: on an index that satisfies the invariant, `Remove(e)` of a pointer that is in the
sequence returns no error; the new sequence is the old one without `e`, the other entries
in their old order; the lookup of `e.Name` finds nothing and the lookup of every other name
is unchanged. -/
theorem remove_present (hp : Heap) (i : Index) (e : Ptr) (hinv : i.Invariant hp)
    (hmem : e ∈ i.Entries) :
    (i.Remove hp e).2 = none ∧
    (i.Remove hp e).1.Entries = i.Entries.filter (fun p => p != e) ∧
    (i.Remove hp e).1.Entries.Sublist i.Entries ∧
    (i.Remove hp e).1.Entries.length + 1 = i.Entries.length ∧
    e ∉ (i.Remove hp e).1.Entries ∧
    (i.Remove hp e).1.EntryByName (hp e).Name = none ∧
    ∀ n, n ≠ (hp e).Name → (i.Remove hp e).1.EntryByName n = i.EntryByName n := by
  have hnd : i.Entries.Nodup := List.Nodup.of_map _ hinv.1
  rw [remove_eq_of_mem hp i e hmem]
  have hfilter : i.Entries.erase e = i.Entries.filter (fun p => p != e) :=
    hnd.erase_eq_filter e
  refine ⟨rfl, hfilter, List.erase_sublist e i.Entries, ?_, ?_, ?_, fun n hn => ?_⟩
  · simp only [List.length_erase_of_mem hmem]
    have := List.length_pos_of_mem hmem
    omega
  · exact fun hc => ((hnd.mem_erase_iff).1 hc).1 rfl
  · simp [Index.EntryByName, AList.lookup_erase]
  · simp [Index.EntryByName, AList.lookup_erase_ne hn]

theorem mem_upsert_iff (hp : Heap) (i : Index) (e p : Ptr)
    (huniq : (entryNames hp i.Entries).Nodup) :
    p ∈ (i.Upsert hp e).Entries ↔ p = e ∨ (p ∈ i.Entries ∧ (hp p).Name ≠ (hp e).Name) := by
  by_cases hin : (hp e).Name ∈ entryNames hp i.Entries
  · obtain ⟨q, hq, hqn⟩ : ∃ q ∈ i.Entries, (hp q).Name = (hp e).Name := by
      simpa [entryNames] using hin
    obtain ⟨k, hk, hkq⟩ := List.getElem_of_mem hq
    have hname : (hp i.Entries[k]).Name = (hp e).Name := by rw [hkq]; exact hqn
    have hset : (i.Upsert hp e).Entries = i.Entries.set k e := by
      unfold Index.Upsert
      rw [upsertLoop_at hp e i.Entries huniq k hk hname]
    rw [hset]
    constructor
    · intro hmem
      rcases List.mem_or_eq_of_mem_set hmem with h1 | h1
      · by_cases hpe : p = e
        · exact Or.inl hpe
        · refine Or.inr ⟨h1, fun hc => ?_⟩
          have hpq : p = q :=
            name_injective_of_nodup hp i.Entries huniq p q h1 hq (by rw [hc, hqn])
          obtain ⟨j, hj, hjp⟩ := List.getElem_of_mem hmem
          rw [List.length_set] at hj
          by_cases hjk : j = k
          · subst hjk
            rw [List.getElem_set_self] at hjp
            exact hpe hjp.symm
          · rw [List.getElem_set_ne (fun hc2 => hjk hc2.symm)] at hjp
            have hnd : i.Entries.Nodup := List.Nodup.of_map _ huniq
            have : j = k := (List.Nodup.getElem_inj_iff hnd).1 (by rw [hjp, hkq, hpq])
            exact hjk this
      · exact Or.inl h1
    · rintro (h1 | ⟨h1, h2⟩)
      · rw [h1]
        exact List.mem_iff_getElem.2 ⟨k, by rw [List.length_set]; exact hk,
          List.getElem_set_self _⟩
      · obtain ⟨j, hj, hjp⟩ := List.getElem_of_mem h1
        have hjk : j ≠ k := by
          intro hc
          subst hc
          rw [hjp] at hname
          exact h2 hname
        exact List.mem_iff_getElem.2 ⟨j, by rw [List.length_set]; exact hj, by
          rw [List.getElem_set_ne (fun hc2 => hjk hc2.symm)]; exact hjp⟩
  · have happ : (i.Upsert hp e).Entries = i.Entries ++ [e] := by
      unfold Index.Upsert
      rw [(upsertLoop_none_iff hp e i.Entries).2 hin]
    rw [happ, List.mem_append, List.mem_singleton]
    constructor
    · rintro (h1 | h1)
      · refine Or.inr ⟨h1, fun hc => hin ?_⟩
        simp only [entryNames, List.mem_map]
        exact ⟨p, h1, hc⟩
      · exact Or.inl h1
    · rintro (h1 | ⟨h1, -⟩)
      · exact Or.inr h1
      · exact Or.inl h1

theorem upsert_entryByName_lookup (hp : Heap) (i : Index) (e : Ptr) :
    (i.Upsert hp e).entryByName = i.entryByName.insert (hp e).Name e := by
  unfold Index.Upsert
  cases upsertLoop hp e i.Entries <;> rfl

theorem invariant_upsert (hp : Heap) (i : Index) (e : Ptr) (h : i.Invariant hp) :
    (i.Upsert hp e).Invariant hp := by
  refine ⟨upsert_names_nodup hp i e h.1, fun n p => ?_⟩
  rw [upsert_entryByName_lookup, lookup_insert_eq, mem_upsert_iff hp i e p h.1]
  by_cases hn : n = (hp e).Name
  · rw [if_pos hn]
    constructor
    · intro hpe
      have : e = p := Option.some.inj hpe
      subst this
      exact ⟨Or.inl rfl, hn.symm⟩
    · rintro ⟨h1 | ⟨-, h2⟩, h3⟩
      · rw [h1]
      · exact absurd (h3.trans hn) h2
  · rw [if_neg hn, h.2]
    constructor
    · rintro ⟨h1, h2⟩
      exact ⟨Or.inr ⟨h1, fun hc => hn (by rw [← h2, hc])⟩, h2⟩
    · rintro ⟨h1 | ⟨h1, -⟩, h3⟩
      · exact absurd (by rw [← h3, h1]) hn
      · exact ⟨h1, h3⟩

/-- Witness of C14: the index with the entries at the addresses 2 and 0 of `heapX`, from
which the entry at address 2 is removed. -/
theorem remove_present_witness :
    (indexYX.Remove heapX 2).2 = none ∧ (indexYX.Remove heapX 2).1.Entries = [0] ∧
    (indexYX.Remove heapX 2).1.EntryByName (heapX 2).Name = none :=
  ⟨(remove_present heapX indexYX 2
      (invariant_upsert heapX _ 0 (invariant_upsert heapX _ 2 (invariant_new heapX _)))
      (by decide)).1,
    by decide, by decide⟩

/-! ### Reachable indexes -/

theorem remove_eq_of_not_mem (hp : Heap) (i : Index) (e : Ptr) (h : e ∉ i.Entries) :
    (i.Remove hp e).1 = i := by
  unfold Index.Remove
  rw [removeLoop_none e i.Entries h]

theorem invariant_remove (hp : Heap) (i : Index) (e : Ptr) (h : i.Invariant hp) :
    (i.Remove hp e).1.Invariant hp := by
  by_cases hmem : e ∈ i.Entries
  · have hnd : i.Entries.Nodup := List.Nodup.of_map _ h.1
    rw [remove_eq_of_mem hp i e hmem]
    refine ⟨?_, fun n p => ?_⟩
    · exact List.Nodup.sublist (List.Sublist.map _ (List.erase_sublist e i.Entries)) h.1
    · simp only
      rw [lookup_erase_eq, hnd.mem_erase_iff]
      by_cases hn : n = (hp e).Name
      · rw [if_pos hn]
        constructor
        · intro hc; cases hc
        · rintro ⟨⟨h1, h2⟩, h3⟩
          exact absurd (name_injective_of_nodup hp i.Entries h.1 p e h2 hmem (h3.trans hn)) h1
      · rw [if_neg hn, h.2]
        constructor
        · rintro ⟨h1, h2⟩
          exact ⟨⟨fun hc => hn (by rw [← h2, hc]), h1⟩, h2⟩
        · rintro ⟨⟨-, h2⟩, h3⟩
          exact ⟨h2, h3⟩
  · rw [remove_eq_of_not_mem hp i e hmem]
    exact h

theorem invariant_of_perm (hp : Heap) (name1 name2 : Str) (l1 l2 : List Ptr)
    (m : GoMap Str Ptr) (hperm : l2.Perm l1) (h : Index.Invariant hp ⟨name1, l1, m⟩) :
    Index.Invariant hp ⟨name2, l2, m⟩ := by
  refine ⟨?_, fun n p => ?_⟩
  · exact ((hperm.map (fun p => (hp p).Name)).nodup_iff).2 h.1
  · rw [h.2 n p]
    simp only [hperm.mem_iff]

theorem normalize_of_invariant (hp : Heap) (i : Index) (h : i.Invariant hp) :
    Index.Normalize hp (some i) =
      (some ⟨i.Name, sortSlice (fun k j => decide ((hp k).Name < (hp j).Name)) i.Entries,
        i.entryByName⟩, none) := by
  rw [normalize_some_eq]
  have h1 : ¬ (i.entryByName.entries.length ≠ i.Entries.length) := by
    rw [map_length_of_lookup hp i.entryByName i.Entries h.1 h.2]
    exact fun hc => hc rfl
  have h2 : ¬ (namesResolve hp i.entryByName i.Entries = false) := by
    have h3 : namesResolve hp i.entryByName i.Entries = true := by
      rw [namesResolve_iff]
      intro e he
      rw [mem_keys_iff_of_lookup hp i.entryByName i.Entries h.2]
      simp only [entryNames, List.mem_map]
      exact ⟨e, he, rfl⟩
    rw [h3]
    exact fun hc => Bool.noConfusion hc
  rw [if_neg h1, if_neg h2]

theorem invariant_apply (hp : Heap) (i : Index) (op : Op) (h : i.Invariant hp) :
    (op.apply hp i).Invariant hp := by
  cases op with
  | upsert e => exact invariant_upsert hp i e h
  | remove e => exact invariant_remove hp i e h
  | normalize =>
    simp only [Op.apply, normalize_of_invariant hp i h, Option.getD_some]
    exact invariant_of_perm hp i.Name i.Name i.Entries _ i.entryByName
      (sortSlice_perm (fun p => (hp p).Name) i.Entries) h

theorem invariant_runOps (hp : Heap) (ops : List Op) (i : Index) (h : i.Invariant hp) :
    (ops.foldl (Op.apply hp) i).Invariant hp := by
  induction ops generalizing i with
  | nil => exact h
  | cons op ops ih => exact ih _ (invariant_apply hp i op h)

/-- C19: every index reached from `New(name)` by calls of `Upsert`, `Remove` and
`Normalize` satisfies the invariant (no repeated name in the sequence, and the lookup map
sends a name to a pointer exactly when the pointer is the entry of that name in the
sequence, so the keys are the names of the sequence and the map has as many keys as the
sequence has entries), and `Normalize` returns no error on it. -/
theorem reachable_invariant (hp : Heap) (name : Str) (ops : List Op) :
    (runOps hp name ops).Invariant hp ∧
    (∀ n, n ∈ (runOps hp name ops).entryByName.keys ↔
      n ∈ entryNames hp (runOps hp name ops).Entries) ∧
    (runOps hp name ops).entryByName.entries.length = (runOps hp name ops).Entries.length ∧
    (Index.Normalize hp (some (runOps hp name ops))).2 = none := by
  have h : (runOps hp name ops).Invariant hp :=
    invariant_runOps hp ops (New name) (invariant_new hp name)
  refine ⟨h, fun n => mem_keys_iff_of_lookup hp _ _ h.2 n,
    map_length_of_lookup hp _ _ h.1 h.2, ?_⟩
  rw [normalize_of_invariant hp _ h]

/-! ### The canonical form -/

theorem sorted_perm_unique_of_key {α : Type} (key : α → Str) (l1 l2 : List α)
    (hperm : l1.Perm l2) (hnodup : (l1.map key).Nodup)
    (h1 : l1.Pairwise (fun a b => key a ≤ key b))
    (h2 : l2.Pairwise (fun a b => key a ≤ key b)) : l1 = l2 := by
  have hnodup2 : (l2.map key).Nodup := (hperm.map key).nodup_iff.1 hnodup
  have strict : ∀ l : List α, (l.map key).Nodup → l.Pairwise (fun a b => key a ≤ key b) →
      l.Pairwise (fun a b => key a < key b) := by
    intro l hn hs
    have hne : l.Pairwise (fun a b => key a ≠ key b) := List.pairwise_map.1 hn
    exact (hs.and hne).imp (fun h => lt_of_le_of_ne h.1 h.2)
  haveI : IsAntisymm α (fun a b => key a < key b) :=
    ⟨fun a b hab hba => absurd hab (lt_asymm hba)⟩
  exact List.eq_of_perm_of_sorted hperm (strict l1 hnodup h1) (strict l2 hnodup2 h2)

/-- C15: two indexes that satisfy the invariant and hold the same entries, as records (the
sequences of records are permutations of each other), are both normalized without error
and then hold the same sequence of records; when they hold the same pointers, they then
hold the same sequence of pointers. -/
theorem normalize_canonical (hp : Heap) (i1 i2 : Index) (h1 : i1.Invariant hp)
    (h2 : i2.Invariant hp) (hperm : (i1.Entries.map hp).Perm (i2.Entries.map hp)) :
    ∃ n1 n2 : Index,
      Index.Normalize hp (some i1) = (some n1, none) ∧
      Index.Normalize hp (some i2) = (some n2, none) ∧
      n1.Entries.map hp = n2.Entries.map hp ∧
      (i1.Entries.Perm i2.Entries → n1.Entries = n2.Entries) := by
  refine ⟨_, _, normalize_of_invariant hp i1 h1, normalize_of_invariant hp i2 h2, ?_, ?_⟩
  · have p1 := sortSlice_perm (fun p => (hp p).Name) i1.Entries
    have p2 := sortSlice_perm (fun p => (hp p).Name) i2.Entries
    have s1 := sortSlice_sorted (fun p => (hp p).Name) i1.Entries
    have s2 := sortSlice_sorted (fun p => (hp p).Name) i2.Entries
    apply sorted_perm_unique_of_key (fun e : Entry => e.Name)
    · exact ((p1.map hp).trans hperm).trans (p2.map hp).symm
    · rw [List.map_map]
      exact ((p1.map (fun p => (hp p).Name)).nodup_iff).2 h1.1
    · exact List.pairwise_map.2 s1
    · exact List.pairwise_map.2 s2
  · intro hptr
    have p1 := sortSlice_perm (fun p => (hp p).Name) i1.Entries
    have p2 := sortSlice_perm (fun p => (hp p).Name) i2.Entries
    apply sorted_perm_unique_of_key (fun p : Ptr => (hp p).Name)
    · exact (p1.trans hptr).trans p2.symm
    · exact ((p1.map (fun p => (hp p).Name)).nodup_iff).2 h1.1
    · exact sortSlice_sorted (fun p => (hp p).Name) i1.Entries
    · exact sortSlice_sorted (fun p => (hp p).Name) i2.Entries

/-- Witness of C15: the entries named `x` and `y` of `heapX`, upserted in the two possible
orders. -/
theorem normalize_canonical_witness :
    ∃ n1 n2 : Index,
      Index.Normalize heapX (some indexYX) = (some n1, none) ∧
      Index.Normalize heapX (some indexXY) = (some n2, none) ∧
      n1.Entries.map heapX = n2.Entries.map heapX ∧
      (indexYX.Entries.Perm indexXY.Entries → n1.Entries = n2.Entries) :=
  normalize_canonical heapX indexYX indexXY
    (invariant_upsert heapX _ 0 (invariant_upsert heapX _ 2 (invariant_new heapX _)))
    (invariant_upsert heapX _ 2 (invariant_upsert heapX _ 0 (invariant_new heapX _)))
    (List.Perm.swap (heapX 0) (heapX 2) [])

/-! ### The invariant of Merge -/

theorem mergeEntry_provenance (hp : Heap) (ih : IndexHeap) (Q : IndexPtr → Prop)
    (B : IndexPtr) (hB : Q B) (m : MergedIndexes) (e : Ptr) (he : e ∈ (ih B).Entries)
    (hinv : m.toIndex.Invariant hp)
    (hprov : ∀ p ∈ m.toIndex.Entries,
      ∃ ix, Q ix ∧ m.IndexByEntry p = some ix ∧ p ∈ (ih ix).Entries) :
    (mergeEntry hp B m e).toIndex.Invariant hp ∧
    ∀ p ∈ (mergeEntry hp B m e).toIndex.Entries,
      ∃ ix, Q ix ∧ (mergeEntry hp B m e).IndexByEntry p = some ix ∧ p ∈ (ih ix).Entries := by
  refine ⟨invariant_upsert hp m.toIndex e hinv, fun p hmem => ?_⟩
  have hmem2 : p ∈ (m.toIndex.Upsert hp e).Entries := hmem
  rw [mem_upsert_iff hp m.toIndex e p hinv.1] at hmem2
  by_cases hpe : p = e
  · subst hpe
    exact ⟨B, hB, by simp [mergeEntry, MergedIndexes.IndexByEntry, AList.lookup_insert], he⟩
  · rcases hmem2 with h1 | ⟨h1, -⟩
    · exact absurd h1 hpe
    · obtain ⟨ix, hq, hl, hin⟩ := hprov p h1
      refine ⟨ix, hq, ?_, hin⟩
      simp only [mergeEntry, MergedIndexes.IndexByEntry, AList.lookup_insert_ne hpe]
      exact hl

theorem mergeEntry_fold_provenance (hp : Heap) (ih : IndexHeap) (Q : IndexPtr → Prop)
    (B : IndexPtr) (hB : Q B) (es : List Ptr) (hes : ∀ e ∈ es, e ∈ (ih B).Entries)
    (m : MergedIndexes) (hinv : m.toIndex.Invariant hp)
    (hprov : ∀ p ∈ m.toIndex.Entries,
      ∃ ix, Q ix ∧ m.IndexByEntry p = some ix ∧ p ∈ (ih ix).Entries) :
    (es.foldl (mergeEntry hp B) m).toIndex.Invariant hp ∧
    ∀ p ∈ (es.foldl (mergeEntry hp B) m).toIndex.Entries,
      ∃ ix, Q ix ∧ (es.foldl (mergeEntry hp B) m).IndexByEntry p = some ix ∧
        p ∈ (ih ix).Entries := by
  induction es generalizing m with
  | nil => exact ⟨hinv, hprov⟩
  | cons e es ih2 =>
    have hstep := mergeEntry_provenance hp ih Q B hB m e (hes e (List.mem_cons_self _ _))
      hinv hprov
    exact ih2 (fun x hx => hes x (List.mem_cons_of_mem _ hx)) (mergeEntry hp B m e)
      hstep.1 hstep.2

theorem merge_provenance (hp : Heap) (ih : IndexHeap) (Q : IndexPtr → Prop)
    (indexes : List IndexPtr) (hQ : ∀ ix ∈ indexes, Q ix)
    (m : MergedIndexes) (hinv : m.toIndex.Invariant hp)
    (hprov : ∀ p ∈ m.toIndex.Entries,
      ∃ ix, Q ix ∧ m.IndexByEntry p = some ix ∧ p ∈ (ih ix).Entries) :
    (m.Merge hp ih indexes).toIndex.Invariant hp ∧
    ∀ p ∈ (m.Merge hp ih indexes).toIndex.Entries,
      ∃ ix, Q ix ∧ (m.Merge hp ih indexes).IndexByEntry p = some ix ∧
        p ∈ (ih ix).Entries := by
  induction indexes generalizing m with
  | nil => exact ⟨hinv, hprov⟩
  | cons B indexes ih2 =>
    have hstep := mergeEntry_fold_provenance hp ih Q B (hQ B (List.mem_cons_self _ _))
      (ih B).Entries (fun e he => he) m hinv hprov
    exact ih2 (fun ix hix => hQ ix (List.mem_cons_of_mem _ hix)) _ hstep.1 hstep.2

/-- C16: after `Merge` of any list of indexes into a fresh `MergedIndexes`, the sequence of
the aggregate has no repeated name, its lookup map agrees with its sequence (the invariant
holds), and every entry of the sequence has a provenance that is one of the merged indexes
and contains the entry; so `IndexByEntry` is not nil on an entry of the sequence. -/
theorem merge_invariant (hp : Heap) (ih : IndexHeap) (indexes : List IndexPtr) :
    (entryNames hp (NewMergedIndexes.Merge hp ih indexes).toIndex.Entries).Nodup ∧
    (NewMergedIndexes.Merge hp ih indexes).toIndex.Invariant hp ∧
    (∀ e ∈ (NewMergedIndexes.Merge hp ih indexes).toIndex.Entries,
      ∃ ix ∈ indexes, (NewMergedIndexes.Merge hp ih indexes).IndexByEntry e = some ix ∧
        e ∈ (ih ix).Entries) ∧
    (∀ e ∈ (NewMergedIndexes.Merge hp ih indexes).toIndex.Entries,
      (NewMergedIndexes.Merge hp ih indexes).IndexByEntry e ≠ none) := by
  have h0 : NewMergedIndexes.toIndex.Invariant hp := by
    refine ⟨by simp [NewMergedIndexes, entryNames], fun n p => ?_⟩
    simp [NewMergedIndexes, AList.lookup_empty]
  have hmain := merge_provenance hp ih (fun ix => ix ∈ indexes) indexes (fun ix hix => hix)
    NewMergedIndexes h0 (fun p hp2 => by simp [NewMergedIndexes] at hp2)
  refine ⟨hmain.1.1, hmain.1, fun e he => ?_, fun e he => ?_⟩
  · obtain ⟨ix, h1, h2, h3⟩ := hmain.2 e he
    exact ⟨ix, h1, h2, h3⟩
  · obtain ⟨ix, -, h2, -⟩ := hmain.2 e he
    rw [h2]
    exact fun hc => Option.noConfusion hc

/-! ### The score of strings that are equal after lower-casing -/

theorem lev_self (x : Str) : lev x x = 0 := by
  induction x using List.reverseRecOn with
  | nil => rw [lev_nil_left]; rfl
  | append_singleton x a ih => rw [lev_snoc_snoc, if_pos rfl, ih]

theorem toLower_ascii (ct : Nat → Nat) (s : Str) (h : ∀ c ∈ s, c < 0x80) :
    toLower ct s = s.map lowerASCII := by
  have hall : s.all (fun c => decide (c < 0x80)) = true := by
    simpa [List.all_eq_true] using h
  simp [toLower, hall]

theorem levenshteinDistance_ascii (ct ct2 : Nat → Nat) (a b : Str)
    (ha : ∀ c ∈ a, c < 0x80) (hb : ∀ c ∈ b, c < 0x80) :
    levenshteinDistance ct a b = levenshteinDistance ct2 a b := by
  rw [levenshteinDistance_eq_lev, levenshteinDistance_eq_lev, toLower_ascii ct a ha,
    toLower_ascii ct b hb, toLower_ascii ct2 a ha, toLower_ascii ct2 b hb]

theorem score_eq_one_of_toLower_eq (ct : Nat → Nat) (a b : Str)
    (heq : toLower ct a = toLower ct b) (hne : a ≠ [] ∨ b ≠ []) :
    score ct a b = Float64.fin 1 := by
  have hd : levenshteinDistance ct a b = 0 := by
    rw [levenshteinDistance_eq_lev, heq, lev_self]
  have hpos : 0 < max a.length b.length := by
    rcases hne with h | h
    · exact lt_of_lt_of_le (List.length_pos.2 h) (le_max_left _ _)
    · exact lt_of_lt_of_le (List.length_pos.2 h) (le_max_right _ _)
  have hcast : max (a.length : ℚ) (b.length : ℚ) = ((max a.length b.length : ℕ) : ℚ) := by
    push_cast
    rfl
  have hL : ((max a.length b.length : ℕ) : ℚ) ≠ 0 := by
    exact_mod_cast (ne_of_gt hpos)
  unfold score
  simp only [hd, hcast]
  unfold Float64.div
  rw [if_neg hL]
  congr 1
  rw [Nat.cast_zero, sub_zero, div_self hL]

theorem levenshteinDistance_abc_xyz :
    levenshteinDistance caseRangesExcerpt (bytes "abc") (bytes "xyz") = 3 := by decide

/-- C17: two strings, not both empty, that are equal after lower-casing have the score 1;
`score("abc", "abc")` is 1; for `"abc"` and `"xyz"` the distance is 3, the longer length is
3 and the score is 0, whatever the case table. -/
theorem score_identical (ct : Nat → Nat) (a b : Str)
    (heq : toLower ct a = toLower ct b) (hne : a ≠ [] ∨ b ≠ []) :
    score ct a b = Float64.fin 1 ∧
    score ct (bytes "abc") (bytes "abc") = Float64.fin 1 ∧
    levenshteinDistance ct (bytes "abc") (bytes "xyz") = 3 ∧
    max (bytes "abc").length (bytes "xyz").length = 3 ∧
    score ct (bytes "abc") (bytes "xyz") = Float64.fin 0 := by
  have hd : levenshteinDistance ct (bytes "abc") (bytes "xyz") = 3 := by
    rw [levenshteinDistance_ascii ct caseRangesExcerpt (bytes "abc") (bytes "xyz")
      (by decide) (by decide)]
    exact levenshteinDistance_abc_xyz
  refine ⟨score_eq_one_of_toLower_eq ct a b heq hne,
    score_eq_one_of_toLower_eq ct _ _ rfl (Or.inl (by decide)), hd, by decide, ?_⟩
  unfold score
  rw [hd]
  have h1 : (bytes "abc").length = 3 := by decide
  have h2 : (bytes "xyz").length = 3 := by decide
  rw [h1, h2]
  norm_num [Float64.div]

/-- Witness of C17: `"ABC"` and `"abc"` are equal after lower-casing. -/
theorem score_identical_witness :
    score caseRangesExcerpt (bytes "ABC") (bytes "abc") = Float64.fin 1 :=
  (score_identical caseRangesExcerpt (bytes "ABC") (bytes "abc") (by decide)
    (Or.inl (by decide))).1

/-! ### Letter case in the keyword search -/

theorem lowerASCII_lt_iff (c : Nat) : lowerASCII c < 0x80 ↔ c < 0x80 := by
  unfold lowerASCII
  split <;> omega

theorem ascii_of_map_lowerASCII_eq (k name : Str) (hname : ∀ c ∈ name, c < 0x80)
    (h : k.map lowerASCII = name.map lowerASCII) : ∀ c ∈ k, c < 0x80 := by
  intro c hc
  have h1 : lowerASCII c ∈ name.map lowerASCII := by
    rw [← h]
    exact List.mem_map_of_mem _ hc
  obtain ⟨c2, hc2, he⟩ := List.mem_map.1 h1
  rw [← lowerASCII_lt_iff, ← he, lowerASCII_lt_iff]
  exact hname c2 hc2

/-- C18, as amended: an entry of the sequence with a non-empty ASCII name is returned for
every keyword list that holds a keyword equal to its name up to letter case, for every
`minScore` with `1 >= minScore`; an entry whose keyword list contains `rule`, whose joined
keyword text does not contain `RULE` and whose name scores below `minScore` against `RULE`
is not returned for the keyword `RULE`. -/
theorem search_letter_case (ct : Nat → Nat) (hp : Heap) (i : Index) (minScore : Float64) :
    (∀ e ∈ i.Entries, (hp e).Name ≠ [] → (∀ c ∈ (hp e).Name, c < 0x80) →
      ∀ k : Str, k.map lowerASCII = (hp e).Name.map lowerASCII →
        (Float64.fin 1).ge minScore = true →
        ∀ keywords : List Str, k ∈ keywords →
          e ∈ i.SearchByKeywords ct hp minScore keywords) ∧
    (∀ e, bytes "rule" ∈ (hp e).Keywords →
      ¬ bytes "RULE" <:+: join (hp e).Keywords (bytes " ") →
      (score ct (hp e).Name (bytes "RULE")).ge minScore = false →
      e ∉ i.SearchByKeywords ct hp minScore [bytes "RULE"]) ∧
    (1 ∉ indexCaseLower.SearchByKeywords caseRangesExcerpt heapCase (Float64.fin (9 / 10))
      [bytes "RULE"] ∧
      1 ∈ indexCaseLower.SearchByKeywords caseRangesExcerpt heapCase (Float64.fin (9 / 10))
        [bytes "rule"] ∧
      1 ∈ indexCaseLower.SearchByKeywords caseRangesExcerpt heapCase (Float64.fin (9 / 10))
        [bytes "OTHER"]) := by
  have hlow : ∀ minScore2 : Float64,
      (score caseRangesExcerpt (bytes "other") (bytes "RULE")).ge minScore2
        = (Float64.fin (1 / 5)).ge minScore2 := by
    intro m
    have hd : levenshteinDistance caseRangesExcerpt (bytes "other") (bytes "RULE") = 4 := by
      decide
    have h1 : (bytes "other").length = 5 := by decide
    have h2 : (bytes "RULE").length = 4 := by decide
    unfold score
    rw [hd, h1, h2]
    norm_num [Float64.div]
  have hname1 : (heapCase 1).Name = bytes "other" := by decide
  refine ⟨?_, ?_, ?_, ?_, ?_⟩
  · intro e he hne hascii k hk hmin keywords hkw
    rw [mem_searchByKeywords]
    refine ⟨he, k, hkw, Or.inl ?_⟩
    have hkascii := ascii_of_map_lowerASCII_eq k (hp e).Name hascii hk
    have heq : toLower ct (hp e).Name = toLower ct k := by
      rw [toLower_ascii ct _ hascii, toLower_ascii ct k hkascii, hk]
    rw [score_eq_one_of_toLower_eq ct (hp e).Name k heq (Or.inl hne)]
    exact hmin
  · intro e _ hnot hscore hmem
    rw [mem_searchByKeywords] at hmem
    obtain ⟨-, k, hk, h⟩ := hmem
    rw [List.mem_singleton] at hk
    subst hk
    rcases h with h | h
    · rw [hscore] at h
      cases h
    · exact hnot h
  · rw [mem_searchByKeywords]
    rintro ⟨-, k, hk, h⟩
    rw [List.mem_singleton] at hk
    subst hk
    rcases h with h | h
    · rw [hname1, hlow] at h
      norm_num [Float64.ge] at h
    · rw [← contains_iff] at h
      revert h
      decide
  · rw [mem_searchByKeywords]
    refine ⟨by decide, bytes "rule", by simp, Or.inr ?_⟩
    rw [← contains_iff]
    decide
  · rw [mem_searchByKeywords]
    refine ⟨by decide, bytes "OTHER", by simp, Or.inl ?_⟩
    rw [hname1, score_eq_one_of_toLower_eq caseRangesExcerpt (bytes "other") (bytes "OTHER")
      (by decide) (Or.inl (by decide))]
    norm_num [Float64.ge]

/-- Counterexample to C18 as stated: the entry at address 0 of `heapCase` has the keywords
`rule` and `RULE` and the name `other`, which scores 1/5 against `RULE`, below the minimum
score 9/10; it is returned for the keyword `RULE`. -/
theorem search_upper_keyword_found :
    bytes "rule" ∈ (heapCase 0).Keywords ∧
    score caseRangesExcerpt (heapCase 0).Name (bytes "RULE") = Float64.fin (1 / 5) ∧
    (score caseRangesExcerpt (heapCase 0).Name (bytes "RULE")).ge (Float64.fin (9 / 10))
      = false ∧
    0 ∈ indexCase.SearchByKeywords caseRangesExcerpt heapCase (Float64.fin (9 / 10))
      [bytes "RULE"] := by
  have hname : (heapCase 0).Name = bytes "other" := by decide
  have hd : levenshteinDistance caseRangesExcerpt (bytes "other") (bytes "RULE") = 4 := by
    decide
  have h1 : (bytes "other").length = 5 := by decide
  have h2 : (bytes "RULE").length = 4 := by decide
  have hs : score caseRangesExcerpt (heapCase 0).Name (bytes "RULE") = Float64.fin (1 / 5) := by
    rw [hname]
    unfold score
    rw [hd, h1, h2]
    norm_num [Float64.div]
  refine ⟨by decide, hs, ?_, ?_⟩
  · rw [hs]
    norm_num [Float64.ge]
  · rw [mem_searchByKeywords]
    refine ⟨by decide, bytes "RULE", by simp, Or.inr ?_⟩
    rw [← contains_iff]
    decide

/-! ### The empty keyword and the empty keyword list -/

/-- C20: when the keyword list holds the empty string, `SearchByKeywords` returns every
entry of the sequence, each once, whatever `minScore` is (not-a-number and the infinities
included); with no keyword at all it returns nothing. -/
theorem search_empty_keyword (ct : Nat → Nat) (hp : Heap) (i : Index) (minScore : Float64)
    (keywords : List Str) (hempty : ([] : Str) ∈ keywords) :
    (∀ e, e ∈ i.SearchByKeywords ct hp minScore keywords ↔ e ∈ i.Entries) ∧
    (i.SearchByKeywords ct hp minScore keywords).Nodup ∧
    (∀ e ∈ i.Entries, (i.SearchByKeywords ct hp minScore keywords).count e = 1) ∧
    i.SearchByKeywords ct hp minScore keywords = i.Entries.toFinset.val ∧
    i.SearchByKeywords ct hp minScore [] = 0 := by
  have hmem : ∀ e, e ∈ i.SearchByKeywords ct hp minScore keywords ↔ e ∈ i.Entries := by
    intro e
    rw [mem_searchByKeywords]
    exact ⟨fun h => h.1, fun h => ⟨h, [], hempty, Or.inr List.nil_infix⟩⟩
  have hnodup : (i.SearchByKeywords ct hp minScore keywords).Nodup :=
    (searchMatches ct hp i minScore keywords).nodup
  refine ⟨hmem, hnodup, fun e he => Multiset.count_eq_one_of_mem hnodup ((hmem e).2 he), ?_, ?_⟩
  · have hfin : searchMatches ct hp i minScore keywords = i.Entries.toFinset := by
      ext e
      rw [List.mem_toFinset, ← hmem e]
      rfl
    unfold Index.SearchByKeywords
    rw [hfin]
  · apply Multiset.eq_zero_of_forall_not_mem
    intro e he
    rw [mem_searchByKeywords] at he
    obtain ⟨-, k, hk, -⟩ := he
    simp at hk

/-- Witness of C20: the index `indexRules`, the minimum score `+Inf` and the keyword list
that holds only the empty string. -/
theorem search_empty_keyword_witness :
    (∀ e, e ∈ indexRules.SearchByKeywords caseRangesExcerpt heapRules (Float64.inf false) [[]]
      ↔ e ∈ indexRules.Entries) ∧
    indexRules.Entries = [0, 1] :=
  ⟨(search_empty_keyword caseRangesExcerpt heapRules indexRules (Float64.inf false) [[]]
    (by simp)).1, by decide⟩

/-! ### Write followed by Read -/

theorem write_eq_of_invariant {FS : Type} (hp : Heap) (lib : Lib FS) (fs fs1 : FS)
    (i : Index) (path content : Str) (sorted : Index)
    (hnorm : Index.Normalize hp (some i) = (some sorted, none))
    (hmarshal : lib.marshal (sorted.Entries.map hp) = Except.ok content)
    (hwrite : lib.writeFile fs path content = (fs1, none)) :
    Index.Write hp lib fs (some i) path = (some sorted, fs1, none) := by
  simp only [Index.Write, hnorm, hmarshal, hwrite]

theorem map_some_of_map_option_eq {α : Type} (f : Ptr → α) (decoded : List (Option Ptr)) :
    ∀ records : List α, decoded.map (Option.map f) = records.map some →
      ∃ entries : List Ptr, decoded = entries.map some ∧ entries.map f = records := by
  induction decoded with
  | nil =>
    intro records h
    cases records with
    | nil => exact ⟨[], rfl, rfl⟩
    | cons r records => simp at h
  | cons d decoded ih =>
    intro records h
    cases records with
    | nil => simp at h
    | cons r records =>
      simp only [List.map_cons, List.cons.injEq] at h
      obtain ⟨entries, h1, h2⟩ := ih records h.2
      cases d with
      | none => simp at h
      | some e =>
        have hr : f e = r := by simpa using h.1
        exact ⟨e :: entries, by rw [h1]; rfl, by rw [List.map_cons, hr, h2]⟩

/-- On an index that satisfies the invariant, when the codec and the file system work
(the encoding is written, the same bytes are read back and decoded into entries equal,
as records, to the entries written), `Write` then `Read` into a fresh index return no error
and the fresh index holds the records of the normalized sequence, in the same order, and
satisfies the invariant. -/
theorem write_read_roundtrip {FS : Type} (hp : Heap) (lib : Lib FS) (fs fs1 : FS)
    (i fresh : Index) (path content : Str) (decoded : List (Option Ptr))
    (hinv : i.Invariant hp)
    (hmarshal : lib.marshal
      ((sortSlice (fun k j => decide ((hp k).Name < (hp j).Name)) i.Entries).map hp)
        = Except.ok content)
    (hwrite : lib.writeFile fs path content = (fs1, none))
    (hread : lib.readFile fs1 (lib.clean path) = Except.ok content)
    (hdec : lib.unmarshal content fresh.Entries = (decoded, none))
    (hcodec : decoded.map (Option.map hp) =
      ((sortSlice (fun k j => decide ((hp k).Name < (hp j).Name)) i.Entries).map hp).map
        some) :
    (Index.Write hp lib fs (some i) path).2.2 = none ∧
    (Index.Write hp lib fs (some i) path).2.1 = fs1 ∧
    ∃ (entries : List Ptr) (m : GoMap Str Ptr),
      fresh.Read hp lib fs1 path = ReadOutcome.returned (entries.map some) m none ∧
      entries.map hp =
        (sortSlice (fun k j => decide ((hp k).Name < (hp j).Name)) i.Entries).map hp ∧
      Index.Invariant hp ⟨fresh.Name, entries, m⟩ := by
  have hw := write_eq_of_invariant hp lib fs fs1 i path content _
    (normalize_of_invariant hp i hinv) hmarshal hwrite
  obtain ⟨entries, hdecoded, hrecords⟩ := map_some_of_map_option_eq hp decoded _ hcodec
  have hnames : entryNames hp entries =
      entryNames hp (sortSlice (fun k j => decide ((hp k).Name < (hp j).Name)) i.Entries) := by
    have := congrArg (List.map (fun e : Entry => e.Name)) hrecords
    simpa [entryNames, List.map_map] using this
  have hnodup : (entryNames hp entries).Nodup := by
    rw [hnames]
    exact (((sortSlice_perm (fun p => (hp p).Name) i.Entries).map
      (fun p => (hp p).Name)).nodup_iff).2 hinv.1
  rw [hdecoded] at hdec
  obtain ⟨m, hr1, hr2, -⟩ :=
    read_of_nodup hp lib fs1 fresh path content entries hread hdec hnodup
  rw [hw]
  exact ⟨rfl, rfl, entries, m, hr1, hrecords, hr2⟩

/-- C12, the code at the failing input: for the index `indexDup`, whose sequence holds two
entries named `x`, `Write` returns no error, and when the bytes written are read back and
decoded into two entries equal, as records, to the two written, `Read` into a fresh index
returns `duplicate entry found: x`. -/
theorem write_then_read_duplicate {FS : Type} (lib : Lib FS) (fs fs1 : FS)
    (path content : Str) (decoded : List (Option Ptr))
    (hmarshal : lib.marshal [heapX 0, heapX 1] = Except.ok content)
    (hwrite : lib.writeFile fs path content = (fs1, none))
    (hread : lib.readFile fs1 (lib.clean path) = Except.ok content)
    (hdec : lib.unmarshal content [] = (decoded, none))
    (hcodec : decoded.map (Option.map heapX) = [some (heapX 0), some (heapX 1)]) :
    (Index.Write heapX lib fs (some indexDup) path).2.2 = none ∧
    (Index.Write heapX lib fs (some indexDup) path).2.1 = fs1 ∧
    ∃ m : GoMap Str Ptr,
      (New (bytes "fresh")).Read heapX lib fs1 path =
        ReadOutcome.returned decoded m (some (bytes "duplicate entry found: x")) := by
  have hsorted : sortSlice (fun k j => decide ((heapX k).Name < (heapX j).Name))
      indexDup.Entries = [0, 1] := by decide
  have hnorm : Index.Normalize heapX (some indexDup) =
      (some ⟨indexDup.Name, [0, 1], indexDup.entryByName⟩, none) := by
    rw [normalize_some_eq, if_neg (by decide), if_neg (by decide), hsorted]
  have hw := write_eq_of_invariant heapX lib fs fs1 indexDup path content _ hnorm
    hmarshal hwrite
  obtain ⟨entries, hdecoded, hrecords⟩ :=
    map_some_of_map_option_eq heapX decoded [heapX 0, heapX 1] hcodec
  have hlen : entries.length = 2 := by
    have := congrArg List.length hrecords
    simpa using this
  obtain ⟨a, b, rfl⟩ := List.length_eq_two.1 hlen
  have ha : (heapX a).Name = bytes "x" := by
    have h1 : heapX a = heapX 0 := by
      have := congrArg List.head? hrecords
      simpa using this
    rw [h1]
    decide
  have hb : (heapX b).Name = bytes "x" := by
    have h1 : heapX b = heapX 1 := by
      have := congrArg (fun l => l.tail.head?) hrecords
      simpa using this
    rw [h1]
    decide
  have hdup : ¬ (entryNames heapX [a, b]).Nodup := by
    simp [entryNames, ha, hb]
  have hdec2 : lib.unmarshal content (New (bytes "fresh")).Entries =
      ([a, b].map some ++ [], none) := by
    rw [List.append_nil, ← hdecoded]
    exact hdec
  obtain ⟨r1, e, r2, m, h1, -, -, h4⟩ :=
    read_duplicate_before_nil heapX lib fs1 (New (bytes "fresh")) path content [a, b] []
      hread hdec2 hdup
  have he : (heapX e).Name = bytes "x" := by
    have hmem : e ∈ [a, b] := by
      rw [h1]
      simp
    rcases List.mem_cons.1 hmem with h5 | h5
    · rw [h5]; exact ha
    · rw [List.mem_singleton.1 h5]; exact hb
  rw [hw]
  refine ⟨rfl, rfl, m, ?_⟩
  rw [h4, he, List.append_nil, hdecoded]
  rfl

/-- Witness of C12: a library whose calls succeed and whose decoder returns the entries at
the addresses 0 and 1 of `heapX`. -/
theorem write_then_read_duplicate_witness :
    (Index.Write heapX libTwo () (some indexDup) (bytes "index.yaml")).2.2 = none ∧
    (Index.Write heapX libTwo () (some indexDup) (bytes "index.yaml")).2.1 = () ∧
    ∃ m : GoMap Str Ptr,
      (New (bytes "fresh")).Read heapX libTwo () (bytes "index.yaml") =
        ReadOutcome.returned [some 0, some 1] m (some (bytes "duplicate entry found: x")) :=
  write_then_read_duplicate libTwo () () (bytes "index.yaml") [] [some 0, some 1]
    rfl rfl rfl rfl rfl

end Falcoctl
